import Mathlib

/-!
Verification of the node-delta JsonML diff/patch components.

Each definition is a shallow embedding of a function of the repository:
the `tree` module (shipped inside `src/lib/delta/jmlpayload.js` together
with the JsonML payload handler), the JsonML tree adapter and node hash
(`src/lib/delta/jmltree.js`), the JsonML delta adapter, operation handlers,
JsonML utilities, the delta factory and the CLI driver (`src/unnamed/...`).
JavaScript objects are modelled by explicit state: object identity becomes a
numeric id, property maps become functions into `Option`, thrown exceptions
become `Except.error`, and `undefined` becomes `none`.
-/

namespace NodeDelta

/-! ## Matching (tree module, `Matching.prototype.get` / `Matching.prototype.put`)

The matching stores partner links as a property on the node objects
themselves.  A state is modelled as the partner property over node ids:
`m a = some b` means node `a` carries `partner = b`. -/

/-- The partner property over node ids; `none` is JavaScript `undefined`. -/
def MState : Type := Nat → Option Nat

/-- A fresh matching: no node carries a partner link yet. -/
def MState.empty : MState := fun _ => none

/-- `Matching.prototype.get`: return `obj[this.propname]`. -/
def MState.get (m : MState) (a : Nat) : Option Nat := m a

/-- `Matching.prototype.put`: throw when either node already carries a
partner, otherwise set `a[propname] = b` and then `b[propname] = a`
(in that order, so for `a = b` the second assignment is the final one). -/
def MState.put (m : MState) (a b : Nat) : Except String MState :=
  if (m a).isSome || (m b).isSome then
    .error "Cannot associate objects which are already part of a matching"
  else
    .ok (fun x => if x = b then some a else if x = a then some b else m x)

/-- Symmetry of the partner links: `partner(partner(a)) == a`. -/
def MState.Sym (m : MState) : Prop := ∀ a b, m a = some b → m b = some a

/-- Matching states reachable from a fresh matching through successful
`put` calls. -/
inductive MState.Reaches : MState → Prop
  | empty : MState.Reaches MState.empty
  | put {m a b m'} : MState.Reaches m → MState.put m a b = .ok m' → MState.Reaches m'

theorem MState.put_ok_fields {m : MState} {a b : Nat} {m' : MState}
    (h : MState.put m a b = .ok m') :
    m a = none ∧ m b = none ∧
      m' = fun x => if x = b then some a else if x = a then some b else m x := by
  unfold MState.put at h
  by_cases hab : ((m a).isSome || (m b).isSome) = true
  · simp [hab] at h
  · have ha : m a = none := by
      cases hma : m a with
      | none => rfl
      | some v => simp [hma] at hab
    have hb : m b = none := by
      cases hmb : m b with
      | none => rfl
      | some v => simp [hmb] at hab
    simp [hab] at h
    exact ⟨ha, hb, h.symm⟩

theorem MState.put_preserves_sym {m : MState} {a b : Nat} {m' : MState}
    (hs : MState.Sym m) (h : MState.put m a b = .ok m') : MState.Sym m' := by
  obtain ⟨ha, hb, hm'⟩ := MState.put_ok_fields h
  subst hm'
  intro x y hxy
  by_cases hxb : x = b
  · subst hxb
    simp at hxy
    subst hxy
    by_cases hab : a = x <;> simp [hab]
  · by_cases hxa : x = a
    · subst hxa
      simp [hxb] at hxy
      subst hxy
      simp
    · simp [hxb, hxa] at hxy
      have hyx := hs x y hxy
      have hyb : y ≠ b := by
        intro hyb; subst hyb
        rw [hb] at hyx; exact Option.noConfusion hyx
      have hya : y ≠ a := by
        intro hya; subst hya
        rw [ha] at hyx; exact Option.noConfusion hyx
      simp [hyb, hya, hyx]

theorem MState.reaches_sym {m : MState} (h : MState.Reaches m) : MState.Sym m := by
  induction h with
  | empty => intro a b hab; exact Option.noConfusion hab
  | put _ hput ih => exact MState.put_preserves_sym ih hput

/-- C3: `Matching.put(a, b)` establishes a symmetric pairing — afterwards
`get(a) = b` and `get(b) = a`, and `partner(partner(x)) == x` holds for every
paired node of the new state — and `put` fails with an error when either
argument already has a partner. -/
theorem c3_matching_put_symmetric (m : MState) (a b : Nat)
    (hr : MState.Reaches m) :
    (∀ m', MState.put m a b = .ok m' →
      m'.get a = some b ∧ m'.get b = some a ∧ MState.Sym m') ∧
    ((m a).isSome ∨ (m b).isSome →
      MState.put m a b =
        .error "Cannot associate objects which are already part of a matching") := by
  constructor
  · intro m' hok
    obtain ⟨_, _, hm'⟩ := MState.put_ok_fields hok
    refine ⟨?_, ?_, MState.put_preserves_sym (MState.reaches_sym hr) hok⟩
    · subst hm'
      by_cases hab : a = b
      · subst hab; simp [MState.get]
      · simp [MState.get, hab]
    · subst hm'; simp [MState.get]
  · intro hsome
    unfold MState.put
    have : ((m a).isSome || (m b).isSome) = true := by
      rcases hsome with h | h <;> simp [h]
    simp [this]

/-- Witness for C3 at a concrete state: the empty matching, pairing nodes
1 and 2. -/
theorem c3_matching_put_symmetric_witness :
    (∀ m', MState.put MState.empty 1 2 = .ok m' →
      m'.get 1 = some 2 ∧ m'.get 2 = some 1 ∧ MState.Sym m') ∧
    ((MState.empty 1).isSome ∨ (MState.empty 2).isSome →
      MState.put MState.empty 1 2 =
        .error "Cannot associate objects which are already part of a matching") :=
  c3_matching_put_symmetric MState.empty 1 2 MState.Reaches.empty

/-! ## Node and append (tree module, `Node` / `Node.prototype.append`)

A `tree.Node` object carries `value`, `depth` (0 on construction), the
back-pointers `par`/`childidx` (initially `undefined`) and a `children`
array of node references.  The mutable object graph is modelled as a store
from node ids to records. -/

/-- The fields of a `tree.Node`; `children` holds node ids. -/
structure NRec where
  value : String
  depth : Nat
  par : Option Nat
  childidx : Option Nat
  children : List Nat
deriving DecidableEq, Repr

/-- The object store: node id to node record, `none` for unallocated ids. -/
def NStore : Type := Nat → Option NRec

def NStore.empty : NStore := fun _ => none

/-- `new Node(value)`: allocate a fresh node with `depth = 0`, no parent,
no child index and an empty children list. -/
def NStore.newNode (s : NStore) (i : Nat) (v : String) : Except String NStore :=
  match s i with
  | some _ => .error "Parameter error: node id already in use"
  | none => .ok (fun x => if x = i then some ⟨v, 0, none, none, []⟩ else s x)

/-- The store after a successful `append`: the child object receives
`depth = parent.depth + 1`, `par` and `childidx = parent.children.length`,
then the parent's children array gets the child pushed.  When `p = c` the
same object receives all mutations. -/
def NStore.appendUpd (s : NStore) (p c : Nat) (pr cr : NRec) : NStore :=
  let cr2 : NRec :=
    { cr with
        depth := pr.depth + 1
        par := some p
        childidx := some pr.children.length }
  let prCur : NRec := if p = c then cr2 else pr
  fun x =>
    if x = p then some { prCur with children := prCur.children ++ [c] }
    else if x = c then some cr2
    else s x

/-- `Node.prototype.append(child)`: throw when the child already has a
parent, otherwise link it as the last child. -/
def NStore.append (s : NStore) (p c : Nat) : Except String NStore :=
  match s p, s c with
  | some pr, some cr =>
    if cr.par.isSome then
      .error "Cannot append a child which already has a parent"
    else
      .ok (NStore.appendUpd s p c pr cr)
  | _, _ => .error "Parameter error: unknown node"

/-- Every parentless node has depth 0. -/
def NStore.RootDepth (s : NStore) : Prop :=
  ∀ i r, s i = some r → r.par = none → r.depth = 0

/-- Every node with a parent is found in its parent's children array at its
`childidx`: `parent.children[childIndex] == self`. -/
def NStore.ParentChild (s : NStore) : Prop :=
  ∀ d dr q, s d = some dr → dr.par = some q →
    ∃ qr i, s q = some qr ∧ dr.childidx = some i ∧ qr.children[i]? = some d

/-- Stores reachable from the empty store by `new Node` and successful
`append` calls. -/
inductive NStore.Reaches : NStore → Prop
  | empty : NStore.Reaches NStore.empty
  | newNode {s i v s'} : NStore.Reaches s → NStore.newNode s i v = .ok s' →
      NStore.Reaches s'
  | append {s p c s'} : NStore.Reaches s → NStore.append s p c = .ok s' →
      NStore.Reaches s'

theorem NStore.newNode_ok_unfold {s : NStore} {i : Nat} {v : String} {s' : NStore}
    (h : NStore.newNode s i v = .ok s') :
    s i = none ∧ s' = fun x => if x = i then some ⟨v, 0, none, none, []⟩ else s x := by
  unfold NStore.newNode at h
  cases hsi : s i with
  | some r => rw [hsi] at h; exact absurd h (by simp)
  | none => rw [hsi] at h; simp at h; exact ⟨rfl, h.symm⟩

theorem NStore.append_ok_unfold {s : NStore} {p c : Nat} {s' : NStore}
    (h : NStore.append s p c = .ok s') :
    ∃ pr cr, s p = some pr ∧ s c = some cr ∧ cr.par = none ∧
      s' = NStore.appendUpd s p c pr cr := by
  unfold NStore.append at h
  cases hsp : s p with
  | none => rw [hsp] at h; exact absurd h (by simp)
  | some pr =>
    cases hsc : s c with
    | none => rw [hsp, hsc] at h; exact absurd h (by simp)
    | some cr =>
      rw [hsp, hsc] at h
      by_cases hpar : cr.par.isSome
      · simp [hpar] at h
      · have hnone : cr.par = none := by
          cases hcp : cr.par with
          | none => rfl
          | some q => simp [hcp] at hpar
        simp [hpar] at h
        exact ⟨pr, cr, rfl, rfl, hnone, h.symm⟩

theorem NStore.rootDepth_empty : NStore.RootDepth NStore.empty := by
  intro i r hir
  exact absurd hir (by simp [NStore.empty])

theorem NStore.parentChild_empty : NStore.ParentChild NStore.empty := by
  intro d dr q hd
  exact absurd hd (by simp [NStore.empty])

theorem NStore.rootDepth_newNode {s : NStore} {i : Nat} {v : String} {s' : NStore}
    (h : NStore.newNode s i v = .ok s') (hrd : NStore.RootDepth s) :
    NStore.RootDepth s' := by
  obtain ⟨hsi, rfl⟩ := NStore.newNode_ok_unfold h
  intro j r hj hpar
  by_cases hji : j = i
  · subst hji
    simp at hj
    rw [← hj]
  · simp [hji] at hj
    exact hrd j r hj hpar

theorem NStore.parentChild_newNode {s : NStore} {i : Nat} {v : String} {s' : NStore}
    (h : NStore.newNode s i v = .ok s') (hpc : NStore.ParentChild s) :
    NStore.ParentChild s' := by
  obtain ⟨hsi, rfl⟩ := NStore.newNode_ok_unfold h
  intro d dr q hd hdq
  by_cases hdi : d = i
  · subst hdi
    simp at hd
    rw [← hd] at hdq
    exact absurd hdq (by simp)
  · simp [hdi] at hd
    obtain ⟨qr, k, hq, hidx, hmem⟩ := hpc d dr q hd hdq
    have hqi : q ≠ i := by
      intro hqi; subst hqi; rw [hsi] at hq; exact Option.noConfusion hq
    exact ⟨qr, k, by simp [hqi, hq], hidx, hmem⟩

/-- Self-append (`node.append(node)`): every mutation lands on the one
object. -/
theorem NStore.appendUpd_self (s : NStore) (p : Nat) (pr : NRec) :
    NStore.appendUpd s p p pr pr = fun x =>
      if x = p then
        some ⟨pr.value, pr.depth + 1, some p, some pr.children.length,
              pr.children ++ [p]⟩
      else s x := by
  funext x
  unfold NStore.appendUpd
  by_cases hxp : x = p <;> simp [hxp]

theorem NStore.appendUpd_ne (s : NStore) (p c : Nat) (pr cr : NRec)
    (hne : p ≠ c) :
    NStore.appendUpd s p c pr cr = fun x =>
      if x = p then some { pr with children := pr.children ++ [c] }
      else if x = c then
        some { cr with
                 depth := pr.depth + 1
                 par := some p
                 childidx := some pr.children.length }
      else s x := by
  funext x
  unfold NStore.appendUpd
  simp [hne]

theorem NStore.getElem?_append_left_of_some {l : List Nat} (l' : List Nat)
    {k x : Nat} (h : l[k]? = some x) : (l ++ l')[k]? = some x := by
  have hk : k < l.length := by
    by_contra hk
    rw [List.getElem?_eq_none (Nat.le_of_not_lt hk)] at h
    exact Option.noConfusion h
  rw [List.getElem?_append, if_pos hk]
  exact h

theorem NStore.rootDepth_append {s : NStore} {p c : Nat} {s' : NStore}
    (h : NStore.append s p c = .ok s') (hrd : NStore.RootDepth s) :
    NStore.RootDepth s' := by
  obtain ⟨pr, cr, hsp, hsc, hparnone, rfl⟩ := NStore.append_ok_unfold h
  by_cases hpceq : p = c
  · rw [← hpceq] at hsc
    obtain rfl : pr = cr := Option.some.inj (hsp.symm.trans hsc)
    rw [← hpceq, NStore.appendUpd_self]
    intro j r hj hpar
    by_cases hjp : j = p
    · rw [hjp] at hj
      simp at hj
      rw [← hj] at hpar
      exact absurd hpar (by simp)
    · simp [hjp] at hj
      exact hrd j r hj hpar
  · rw [NStore.appendUpd_ne s p c pr cr hpceq]
    intro j r hj hpar
    by_cases hjp : j = p
    · rw [hjp] at hj
      simp at hj
      rw [← hj] at hpar ⊢
      simp at hpar ⊢
      exact hrd p pr hsp hpar
    · by_cases hjc : j = c
      · rw [hjc] at hj
        simp [show ¬ (c = p) from fun e => hpceq e.symm] at hj
        rw [← hj] at hpar
        exact absurd hpar (by simp)
      · simp [hjp, hjc] at hj
        exact hrd j r hj hpar

theorem NStore.parentChild_append {s : NStore} {p c : Nat} {s' : NStore}
    (h : NStore.append s p c = .ok s') (hpc : NStore.ParentChild s) :
    NStore.ParentChild s' := by
  obtain ⟨pr, cr, hsp, hsc, hparnone, rfl⟩ := NStore.append_ok_unfold h
  by_cases hpceq : p = c
  · -- self-append world
    rw [← hpceq] at hsc
    obtain rfl : pr = cr := Option.some.inj (hsp.symm.trans hsc)
    rw [← hpceq, NStore.appendUpd_self]
    intro d dr q hd hdq
    by_cases hdp : d = p
    · have hdr : (⟨pr.value, pr.depth + 1, some p, some pr.children.length,
          pr.children ++ [p]⟩ : NRec) = dr := by
        rw [hdp] at hd; simpa using hd
      rw [← hdr] at hdq
      have hq2 : q = p := by simp at hdq; omega
      rw [hq2, hdp, ← hdr]
      refine ⟨⟨pr.value, pr.depth + 1, some p, some pr.children.length,
        pr.children ++ [p]⟩, pr.children.length, by simp, by simp, ?_⟩
      exact List.getElem?_concat_length pr.children p
    · simp [hdp] at hd
      obtain ⟨qr, k, hq, hidx, hmem⟩ := hpc d dr q hd hdq
      by_cases hqp : q = p
      · rw [hqp] at hq ⊢
        obtain rfl : pr = qr := Option.some.inj (hsp.symm.trans hq)
        exact ⟨⟨pr.value, pr.depth + 1, some p, some pr.children.length,
          pr.children ++ [p]⟩, k, by simp, hidx,
          NStore.getElem?_append_left_of_some [p] hmem⟩
      · exact ⟨qr, k, by simp [hqp, hq], hidx, hmem⟩
  · -- distinct parent and child objects
    rw [NStore.appendUpd_ne s p c pr cr hpceq]
    intro d dr q hd hdq
    -- lifting an old children-array hit into the updated store
    have lift : ∀ (q₀ : Nat) (qr : NRec) (k x : Nat),
        s q₀ = some qr → qr.children[k]? = some x →
        ∃ qr', (fun y =>
          if y = p then some { pr with children := pr.children ++ [c] }
          else if y = c then
            some { cr with
                     depth := pr.depth + 1
                     par := some p
                     childidx := some pr.children.length }
          else s y) q₀ = some qr' ∧ qr'.children[k]? = some x := by
      intro q₀ qr k x hq hqk
      by_cases hqp : q₀ = p
      · rw [hqp] at hq ⊢
        obtain rfl : pr = qr := Option.some.inj (hsp.symm.trans hq)
        exact ⟨{ pr with children := pr.children ++ [c] }, by simp,
          by simpa using NStore.getElem?_append_left_of_some [c] hqk⟩
      · by_cases hqc : q₀ = c
        · rw [hqc] at hq ⊢
          obtain rfl : cr = qr := Option.some.inj (hsc.symm.trans hq)
          exact ⟨{ cr with
                     depth := pr.depth + 1
                     par := some p
                     childidx := some pr.children.length },
            by simp [Ne.symm hpceq], by simpa using hqk⟩
        · exact ⟨qr, by simp [hqp, hqc, hq], hqk⟩
    by_cases hdp : d = p
    · have hdr : ({ pr with children := pr.children ++ [c] } : NRec) = dr := by
        rw [hdp] at hd; simpa using hd
      rw [← hdr] at hdq
      simp at hdq
      obtain ⟨qr, k, hq, hidx, hmem⟩ := hpc p pr q hsp hdq
      obtain ⟨qr', hq', hmem'⟩ := lift q qr k p hq hmem
      refine ⟨qr', k, hq', ?_, ?_⟩
      · rw [← hdr]
        simpa using hidx
      · rw [hdp]
        exact hmem'
    · by_cases hdc : d = c
      · have hdr : ({ cr with
            depth := pr.depth + 1
            par := some p
            childidx := some pr.children.length } : NRec) = dr := by
          rw [hdc] at hd
          simpa [show ¬ (c = p) from fun e => hpceq e.symm] using hd
        rw [← hdr] at hdq
        have hq2 : q = p := by simp at hdq; omega
        rw [hq2, hdc, ← hdr]
        refine ⟨{ pr with children := pr.children ++ [c] },
          pr.children.length, by simp, by simp, ?_⟩
        exact List.getElem?_concat_length pr.children c
      · simp [hdp, hdc] at hd
        obtain ⟨qr, k, hq, hidx, hmem⟩ := hpc d dr q hd hdq
        obtain ⟨qr', hq', hmem'⟩ := lift q qr k d hq hmem
        exact ⟨qr', k, hq', hidx, hmem'⟩

theorem NStore.reaches_inv {s : NStore} (h : NStore.Reaches s) :
    NStore.RootDepth s ∧ NStore.ParentChild s := by
  induction h with
  | empty => exact ⟨NStore.rootDepth_empty, NStore.parentChild_empty⟩
  | newNode _ hok ih =>
      exact ⟨NStore.rootDepth_newNode hok ih.1, NStore.parentChild_newNode hok ih.2⟩
  | append _ hok ih =>
      exact ⟨NStore.rootDepth_append hok ih.1, NStore.parentChild_append hok ih.2⟩

/-- Concrete build: three fresh nodes 0, 1, 2. -/
def c4s1 : NStore := fun x => if x = 0 then some ⟨"r", 0, none, none, []⟩ else NStore.empty x

def c4s2 : NStore := fun x => if x = 1 then some ⟨"c", 0, none, none, []⟩ else c4s1 x

def c4s3 : NStore := fun x => if x = 2 then some ⟨"g", 0, none, none, []⟩ else c4s2 x

/-- After `node1.append(node2)` (bottom-up construction). -/
def c4s4 : NStore :=
  NStore.appendUpd c4s3 1 2 ⟨"c", 0, none, none, []⟩ ⟨"g", 0, none, none, []⟩

/-- After `node0.append(node1)`: node 2 keeps its stale depth 1. -/
def c4s5 : NStore :=
  NStore.appendUpd c4s4 0 1 ⟨"r", 0, none, none, []⟩ ⟨"c", 0, none, none, [2]⟩

theorem c4s5_reaches : NStore.Reaches c4s5 :=
  @NStore.Reaches.append c4s4 0 1 c4s5
    (@NStore.Reaches.append c4s3 1 2 c4s4
      (@NStore.Reaches.newNode c4s2 2 "g" c4s3
        (@NStore.Reaches.newNode c4s1 1 "c" c4s2
          (@NStore.Reaches.newNode NStore.empty 0 "r" c4s1
            NStore.Reaches.empty rfl) rfl) rfl) rfl) rfl

/-- C4 counterexample: the claimed invariant `depth(child) = depth(parent)+1`
for every edge fails on a reachable store.  Building the tree bottom-up
(`node1.append(node2); node0.append(node1)`) leaves node 2 with depth 1
although its parent, node 1, also has depth 1. -/
theorem c4_counterexample_depth :
    ∃ s : NStore, NStore.Reaches s ∧ ∃ gr cr : NRec,
      s 2 = some gr ∧ s 1 = some cr ∧ gr.par = some 1 ∧ gr.depth ≠ cr.depth + 1 :=
  ⟨c4s5, c4s5_reaches, ⟨"g", 1, some 1, some 0, []⟩, ⟨"c", 1, some 0, some 0, [2]⟩,
    rfl, rfl, rfl, by decide⟩

/-- C4 (amended): every store reachable by `new Node` and `append` satisfies
`depth(root) = 0` for parentless nodes and `parent.children[childIndex] ==
self` for every parented node; `append(child)` fails when the child already
has a parent; and a successful `append(parent, child)` sets `child.depth =
parent.depth + 1` at the time of the call (the depth equation need not keep
holding for descendants appended earlier). -/
theorem c4_node_append_invariants :
    (∀ s : NStore, NStore.Reaches s → NStore.RootDepth s ∧ NStore.ParentChild s) ∧
    (∀ (s : NStore) (p c : Nat) (pr cr : NRec), s p = some pr → s c = some cr →
      cr.par.isSome = true →
      NStore.append s p c =
        .error "Cannot append a child which already has a parent") ∧
    (∀ (s : NStore) (p c : Nat) (pr : NRec) (s' : NStore), s p = some pr →
      NStore.append s p c = .ok s' →
      ∃ cr', s' c = some cr' ∧ cr'.depth = pr.depth + 1 ∧ cr'.par = some p) := by
  refine ⟨fun s h => NStore.reaches_inv h, ?_, ?_⟩
  · intro s p c pr cr hsp hsc hpar
    unfold NStore.append
    rw [hsp, hsc]
    simp [hpar]
  · intro s p c pr s' hsp hok
    obtain ⟨pr2, cr2, hsp2, hsc2, hparnone, rfl⟩ := NStore.append_ok_unfold hok
    obtain rfl : pr = pr2 := Option.some.inj (hsp.symm.trans hsp2)
    unfold NStore.appendUpd
    by_cases hcp : c = p
    · rw [hcp]
      exact ⟨⟨cr2.value, pr.depth + 1, some p, some pr.children.length,
        cr2.children ++ [p]⟩, by simp, rfl, rfl⟩
    · exact ⟨⟨cr2.value, pr.depth + 1, some p, some pr.children.length,
        cr2.children⟩, by simp [hcp], rfl, rfl⟩

/-- Witness for C4 at a concrete store: the invariants hold of the reachable
store `c4s5`, re-parenting node 1 fails, and `node1.append(node2)` on `c4s3`
set node 2's depth to `depth(node 1) + 1`. -/
theorem c4_node_append_invariants_witness :
    (NStore.RootDepth c4s5 ∧ NStore.ParentChild c4s5) ∧
    NStore.append c4s5 0 1 =
      .error "Cannot append a child which already has a parent" ∧
    (∃ cr', c4s4 2 = some cr' ∧ cr'.depth = 0 + 1 ∧ cr'.par = some 1) :=
  ⟨c4_node_append_invariants.1 c4s5 c4s5_reaches,
    c4_node_append_invariants.2.1 c4s5 0 1 ⟨"r", 0, none, none, [1]⟩
      ⟨"c", 1, some 0, some 0, [2]⟩ rfl rfl rfl,
    c4_node_append_invariants.2.2 c4s3 1 2 ⟨"c", 0, none, none, []⟩ c4s4 rfl rfl⟩

/-! ## DocumentOrderIndex (tree module)

`buildAll` walks the tree once in pre-order (`Node.prototype.forEach`),
storing each visited node in `nodes` and the running position on the node
(`docorderidx` property).  Node identity is modelled by an id carried on
each node; the `docorderidx` property becomes a map from ids to positions,
later assignments overwriting earlier ones, exactly as property writes do. -/

inductive JTree where
  | node (id : Nat) (children : List JTree)

def JTree.id : JTree → Nat
  | .node i _ => i

mutual

def JTree.beq : JTree → JTree → Bool
  | .node i cs, .node j ds => i == j && JTree.beqList cs ds

def JTree.beqList : List JTree → List JTree → Bool
  | [], [] => true
  | t :: ts, u :: us => JTree.beq t u && JTree.beqList ts us
  | _, _ => false

end

mutual

theorem JTree.beq_iff : ∀ a b : JTree, (JTree.beq a b = true) ↔ a = b
  | .node i cs, .node j ds => by
      unfold JTree.beq
      rw [Bool.and_eq_true, JTree.beqList_iff cs ds]
      simp

theorem JTree.beqList_iff : ∀ as bs : List JTree,
    (JTree.beqList as bs = true) ↔ as = bs
  | [], [] => by simp [JTree.beqList]
  | [], _ :: _ => by simp [JTree.beqList]
  | _ :: _, [] => by simp [JTree.beqList]
  | a :: as, b :: bs => by
      unfold JTree.beqList
      rw [Bool.and_eq_true, JTree.beq_iff a b, JTree.beqList_iff as bs]
      simp

end

instance : DecidableEq JTree := fun a b => decidable_of_iff _ (JTree.beq_iff a b)

mutual

/-- `Node.prototype.forEach`: the node itself, then every child subtree, in
stored order (pre-order / document order). -/
def JTree.preorder : JTree → List JTree
  | .node i cs => .node i cs :: JTree.preorderList cs

def JTree.preorderList : List JTree → List JTree
  | [] => []
  | t :: ts => t.preorder ++ JTree.preorderList ts

end

/-- The `docorderidx` assignments of `buildAll` over the visited list,
starting at position `i`; a later visit overwrites an earlier write to the
same id (property write semantics). -/
def DOI.buildFrom : Nat → List JTree → (Nat → Option Nat)
  | _, [] => fun _ => none
  | i, t :: ts => fun x =>
      match DOI.buildFrom (i + 1) ts x with
      | some j => some j
      | none => if x = t.id then some i else none

/-- `DocumentOrderIndex.prototype.buildAll`: index the pre-order node list
from position 0. -/
def DOI.buildIdx (l : List JTree) : Nat → Option Nat := DOI.buildFrom 0 l

/-- `DocumentOrderIndex.prototype.get(refnode, offset)` after `buildAll`
(`idxcomplete = true`): a node without the cached property yields
`undefined`; a corrupt cache throws; otherwise the result is
`nodes[refindex + offset]` when in range and `undefined` beyond either
bound. -/
def DOI.get (nodes : List JTree) (idx : Nat → Option Nat) (ref : JTree)
    (offset : Int) : Except String (Option JTree) :=
  match idx ref.id with
  | some refindex =>
      if nodes[refindex]? = some ref then
        if (refindex : Int) + offset < 0 then .ok none
        else if (refindex : Int) + offset < (nodes.length : Int) then
          .ok nodes[((refindex : Int) + offset).toNat]?
        else .ok none
      else .error "Document order index corrupt"
  | none => .ok none

theorem DOI.buildFrom_none {l : List JTree} {x : Nat}
    (hx : x ∉ l.map JTree.id) : ∀ i, DOI.buildFrom i l x = none := by
  induction l with
  | nil => intro i; rfl
  | cons t ts ih =>
      intro i
      simp at hx
      unfold DOI.buildFrom
      rw [ih (by simp; exact fun u hu => hx.2 u hu) (i + 1)]
      simp [hx.1]

theorem DOI.buildFrom_pos {l : List JTree} (hn : (l.map JTree.id).Nodup) :
    ∀ (i k : Nat) (t : JTree), l[k]? = some t →
      DOI.buildFrom i l t.id = some (i + k) := by
  induction l with
  | nil => intro i k t ht; simp at ht
  | cons u us ih =>
      intro i k t ht
      simp at hn
      unfold DOI.buildFrom
      cases k with
      | zero =>
          simp at ht
          rw [← ht]
          rw [DOI.buildFrom_none (by simpa using hn.1) (i + 1)]
          simp
      | succ k =>
          simp at ht
          rw [ih hn.2 (i + 1) k t ht]
          simp
          omega

theorem DOI.buildIdx_pos {l : List JTree} (hn : (l.map JTree.id).Nodup)
    {k : Nat} {t : JTree} (ht : l[k]? = some t) :
    DOI.buildIdx l t.id = some k := by
  have := DOI.buildFrom_pos hn 0 k t ht
  simpa [DOI.buildIdx] using this

/-- C5: after `buildAll` on a tree with distinct node identities, every
indexed node stores its own pre-order position (`nodes[n.docorderidx] == n`),
and `get(ref, offset)` returns the node exactly `offset` positions away from
`ref` in document order, `undefined` when the requested position lies before
the first or after the last indexed node. -/
theorem c5_document_order_index (t : JTree)
    (hn : (t.preorder.map JTree.id).Nodup) :
    (∀ (k : Nat) (n : JTree), t.preorder[k]? = some n →
      DOI.buildIdx t.preorder n.id = some k) ∧
    (∀ (k : Nat) (n : JTree) (offset : Int), t.preorder[k]? = some n →
      DOI.get t.preorder (DOI.buildIdx t.preorder) n offset =
        .ok (if (k : Int) + offset < 0 then none
             else t.preorder[((k : Int) + offset).toNat]?)) := by
  refine ⟨fun k n hk => DOI.buildIdx_pos hn hk, ?_⟩
  intro k n offset hk
  unfold DOI.get
  rw [DOI.buildIdx_pos hn hk]
  simp only [hk]
  by_cases hlow : (k : Int) + offset < 0
  · simp [hlow]
  · by_cases hhigh : (k : Int) + offset < (t.preorder.length : Int)
    · simp [hlow, hhigh]
    · have hnone : t.preorder[((k : Int) + offset).toNat]? = none := by
        apply List.getElem?_eq_none
        omega
      simp [hlow, hhigh, hnone]

/-- Witness for C5 on the tree `node 0 [node 1 [], node 2 []]`: node 1 sits
at position 1 and `get(node1, 1)` returns node 2, while `get(node1, -2)` and
`get(node1, 2)` are `undefined`. -/
theorem c5_document_order_index_witness :
    (JTree.node 0 [.node 1 [], .node 2 []]).preorder[1]? = some (.node 1 []) ∧
    DOI.get (JTree.node 0 [.node 1 [], .node 2 []]).preorder
        (DOI.buildIdx (JTree.node 0 [.node 1 [], .node 2 []]).preorder)
        (.node 1 []) 1 =
      .ok (if ((1 : Nat) : Int) + 1 < 0 then none
           else (JTree.node 0 [.node 1 [], .node 2 []]).preorder[(((1 : Nat) : Int) + 1).toNat]?) :=
  ⟨by decide,
    (c5_document_order_index (.node 0 [.node 1 [], .node 2 []]) (by decide)).2
      1 (.node 1 []) 1 (by decide)⟩

/-! ## FNV-1a and the JsonML node hash (`jmltree.js`, `JMLNodeHash`)

Modelled from the spec: `fnv132.js` is not under src/; §4.C specifies a
32-bit FNV-1a (offset `0x811C9DC5`, prime `0x01000193`) consuming byte
sequences incrementally, strings fed as UTF-8 bytes.  `hash.update` calls
concatenate, so `process` hashes the concatenation of everything fed. -/

/-- One FNV-1a step on a byte: xor then multiply by the prime, mod 2^32. -/
def fnv1aStep (h b : Nat) : Nat := ((h ^^^ b) * 16777619) % 4294967296

def fnv1a (bytes : List Nat) : Nat := bytes.foldl fnv1aStep 2166136261

/-- UTF-8 bytes of one character. -/
def utf8Char (c : Char) : List Nat :=
  let n := c.toNat
  if n < 128 then [n]
  else if n < 2048 then [192 ||| (n >>> 6), 128 ||| (n &&& 63)]
  else if n < 65536 then
    [224 ||| (n >>> 12), 128 ||| ((n >>> 6) &&& 63), 128 ||| (n &&& 63)]
  else
    [240 ||| (n >>> 18), 128 ||| ((n >>> 12) &&& 63),
     128 ||| ((n >>> 6) &&& 63), 128 ||| (n &&& 63)]

def utf8Str : List Char → List Nat
  | [] => []
  | c :: cs => utf8Char c ++ utf8Str cs

/-- UTF-8 bytes of a string. -/
def utf8 (s : String) : List Nat := utf8Str s.data

/-- A JsonML node as seen by `JMLNodeHash`: an element (tag and attribute
object) or a text node.  `process` never reads children, so they are not
represented; an element without an attribute object hashes exactly like one
with an empty attribute object (`eachAttribute` yields nothing), so the
attribute object is a plain association list in insertion order. -/
inductive JmlNode where
  | element (tag : String) (attrs : List (String × String))
  | text (s : String)

/-- `ELEMENT_PREFIX = '\x00\x00\x00\x01'` as UTF-8 bytes. -/
def elementMarkBytes : List Nat := [0, 0, 0, 1]

/-- `ATTRIBUTE_PREFIX = '\x00\x00\x00\x02'` as UTF-8 bytes. -/
def attributeMarkBytes : List Nat := [0, 0, 0, 2]

/-- `TEXT_PREFIX = '\x00\x00\x00\x03'` as UTF-8 bytes. -/
def textMarkBytes : List Nat := [0, 0, 0, 3]

/-- `SEPARATOR = '\x00\x00'` as UTF-8 bytes. -/
def sepBytes : List Nat := [0, 0]

/-- The `attrnodes` object of `processElement`: `attrnodes[key] = value` per
iteration, a later assignment overwriting an earlier one. -/
def assignAll : List (String × String) → String → Option String
  | [], _ => none
  | (k, v) :: rest, x =>
      match assignAll rest x with
      | some w => some w
      | none => if x = k then some v else none

def attrValue (attrs : List (String × String)) (k : String) : String :=
  (assignAll attrs k).getD ""

/-- `processAttribute` over a key list: prefix, qualified name, separator,
value, for each key in order. -/
def attrBytes (attrs : List (String × String)) : List String → List Nat
  | [] => []
  | k :: ks =>
      attributeMarkBytes ++ utf8 k ++ sepBytes ++ utf8 (attrValue attrs k) ++
        attrBytes attrs ks

/-- The key list `attrqns` of `processElement`: each key is `unshift`ed (so
the collected list is the reverse of iteration order), then sorted. -/
def sortedAttrKeys (attrs : List (String × String)) : List String :=
  List.insertionSort (· ≤ ·) ((attrs.map Prod.fst).reverse)

/-- The byte sequence `JMLNodeHash.process` feeds to the hash. -/
def jmlNodeBytes : JmlNode → List Nat
  | .element tag attrs =>
      elementMarkBytes ++ utf8 tag ++ sepBytes ++
        attrBytes attrs (sortedAttrKeys attrs)
  | .text s => textMarkBytes ++ utf8 s

/-- `JMLNodeHash.prototype.process`. -/
def jmlNodeHash (n : JmlNode) : Nat := fnv1a (jmlNodeBytes n)

/-- The element byte layout as the claim words it: ELEMENT prefix, tag,
separator, then for each attribute in ascending key order the ATTRIBUTE
prefix, key, separator and value. -/
def specElementBytes (tag : String) (attrs : List (String × String)) : List Nat :=
  elementMarkBytes ++ utf8 tag ++ sepBytes ++
    attrBytes attrs (List.insertionSort (· ≤ ·) (attrs.map Prod.fst))

theorem insertionSort_eq_of_perm {l1 l2 : List String} (h : l1.Perm l2) :
    List.insertionSort (· ≤ ·) l1 = List.insertionSort (· ≤ ·) l2 :=
  List.eq_of_perm_of_sorted
    ((List.perm_insertionSort _ l1).trans
      (h.trans (List.perm_insertionSort _ l2).symm))
    (List.sorted_insertionSort _ l1) (List.sorted_insertionSort _ l2)

theorem assignAll_eq_of_perm {a1 a2 : List (String × String)} (h : a1.Perm a2)
    (hn : (a1.map Prod.fst).Nodup) : ∀ k, assignAll a1 k = assignAll a2 k := by
  induction h with
  | nil => intro k; rfl
  | cons x _ ih =>
      intro k
      simp at hn
      unfold assignAll
      obtain ⟨x1, x2⟩ := x
      rw [ih hn.2 k]
  | swap x y l =>
      intro k
      obtain ⟨x1, x2⟩ := x
      obtain ⟨y1, y2⟩ := y
      have hxy : x1 ≠ y1 := by
        intro e
        rw [e] at hn
        simp at hn
      simp only [assignAll]
      cases hal : assignAll l k with
      | some w => rfl
      | none =>
          by_cases hkx : k = x1
          · simp [hkx, hxy, Ne.symm hxy]
          · by_cases hky : k = y1
            · simp [hky, hxy, Ne.symm hxy]
            · simp [hkx, hky]
  | trans h1 _ ih1 ih2 =>
      intro k
      rw [ih1 hn k]
      exact ih2 ((h1.map Prod.fst).nodup_iff.mp hn) k

theorem attrBytes_congr {a1 a2 : List (String × String)}
    (hv : ∀ k, attrValue a1 k = attrValue a2 k) :
    ∀ ks, attrBytes a1 ks = attrBytes a2 ks := by
  intro ks
  induction ks with
  | nil => rfl
  | cons k ks ih => unfold attrBytes; rw [hv k, ih]

/-- C6: the JsonML node hash of an element is FNV-1a over the 4-byte ELEMENT
prefix `00 00 00 01`, the tag, the 2-byte separator `00 00`, then for each
attribute in ascending key order the ATTRIBUTE prefix `00 00 00 02`, key,
separator and value; the hash of a text node is FNV-1a over the TEXT prefix
`00 00 00 03` followed by the text; and two elements with equal tag and
equal attribute map (same pairs, distinct keys) hash equally regardless of
attribute insertion order. -/
theorem c6_jml_node_hash :
    (∀ (tag : String) (attrs : List (String × String)),
      jmlNodeHash (.element tag attrs) = fnv1a (specElementBytes tag attrs)) ∧
    (∀ s : String, jmlNodeHash (.text s) = fnv1a (textMarkBytes ++ utf8 s)) ∧
    (∀ (tag : String) (a1 a2 : List (String × String)),
      (a1.map Prod.fst).Nodup → a1.Perm a2 →
      jmlNodeHash (.element tag a1) = jmlNodeHash (.element tag a2)) := by
  refine ⟨?_, fun s => rfl, ?_⟩
  · intro tag attrs
    simp only [jmlNodeHash, jmlNodeBytes, specElementBytes, sortedAttrKeys]
    rw [insertionSort_eq_of_perm (List.reverse_perm (attrs.map Prod.fst))]
  · intro tag a1 a2 hn hperm
    simp only [jmlNodeHash, jmlNodeBytes, sortedAttrKeys]
    rw [insertionSort_eq_of_perm ((List.reverse_perm _).trans
      ((hperm.map Prod.fst).trans (List.reverse_perm _).symm))]
    have hv : ∀ k, attrValue a1 k = attrValue a2 k := by
      intro k
      unfold attrValue
      rw [assignAll_eq_of_perm hperm hn k]
    rw [attrBytes_congr hv]

/-- Witness for C6: two insertion orders of the attribute map
`{href: x, id: y}` hash equally on tag `a`. -/
theorem c6_jml_node_hash_witness :
    jmlNodeHash (.element "a" [("href", "x"), ("id", "y")]) =
      jmlNodeHash (.element "a" [("id", "y"), ("href", "x")]) :=
  c6_jml_node_hash.2.2 "a" [("href", "x"), ("id", "y")]
    [("id", "y"), ("href", "x")] (by decide) (by decide)

/-! ## Fingerprint serialization (`JMLDeltaAdapter.formatFingerprint` /
`JMLDeltaAdapter.parseContext`)

`formatFingerprint` maps each entry to `n ? n.toString(16) : ''` and joins
with `';'`; `parseContext` splits the context text on `';'`, trims each
component and returns `parseInt(component, 16)` for non-empty components —
and JavaScript `undefined` (not 0) for empty ones.  Strings are lists of
characters here; `toString(16)` for a positive integer is modelled with
explicit fuel (the digit loop runs at most `n` times, so fuel `n + 1` is
never exhausted). -/

/-- Lowercase hex digit for a value below 16 (`0-9`, `a-f`). -/
def hexDigitChar (m : Nat) : Char := Char.ofNat (if m < 10 then 48 + m else 87 + m)

/-- Digit loop of `Number.prototype.toString(16)`: peel the least
significant digit off until the number is exhausted. -/
def toHexFuel : Nat → Nat → List Char → List Char
  | 0, _, acc => acc
  | fuel + 1, n, acc =>
      if n = 0 then acc else toHexFuel fuel (n / 16) (hexDigitChar (n % 16) :: acc)

/-- `n.toString(16)` for positive `n`: most significant digit first. -/
def toHex (n : Nat) : List Char := toHexFuel (n + 1) n []

/-- `JMLDeltaAdapter.prototype.formatFingerprint`: each part rendered as
lowercase hex, a zero part as the empty string, joined with `';'`. -/
def formatFingerprint (parts : List Nat) : List Char :=
  [';'].intercalate (parts.map fun n => if n = 0 then [] else toHex n)

/-- Hex digit value accepted by `parseInt(..., 16)`. -/
def hexVal (c : Char) : Option Nat :=
  if 48 ≤ c.toNat ∧ c.toNat ≤ 57 then some (c.toNat - 48)
  else if 97 ≤ c.toNat ∧ c.toNat ≤ 102 then some (c.toNat - 87)
  else if 65 ≤ c.toNat ∧ c.toNat ≤ 70 then some (c.toNat - 55)
  else none

def isHexDigit (c : Char) : Bool := (hexVal c).isSome

/-- The whitespace characters `String.prototype.trim` strips. -/
def isWSChar (c : Char) : Bool :=
  c.toNat = 32 || c.toNat = 9 || c.toNat = 10 || c.toNat = 13 ||
    c.toNat = 12 || c.toNat = 11

def trimChars (l : List Char) : List Char :=
  ((l.dropWhile isWSChar).reverse.dropWhile isWSChar).reverse

/-- `parseInt(s, 16)`: value of the longest hex-digit prefix, NaN (`none`)
when there is none. -/
def parseInt16 (l : List Char) : Option Nat :=
  let ds := l.takeWhile isHexDigit
  if ds.isEmpty then none
  else some (ds.foldl (fun a c => 16 * a + (hexVal c).getD 0) 0)

/-- A JavaScript array entry produced by `parseContext`'s map callback:
`undefined` for an empty component, NaN when `parseInt` fails, or a
number. -/
inductive ParsedEntry where
  | undefinedV
  | nan
  | num (n : Nat)
deriving DecidableEq, Repr

/-- The map callback of `parseContext`: trim, keep `undefined` for empty
components, `parseInt(component, 16)` otherwise. -/
def parseEntry (comp : List Char) : ParsedEntry :=
  let t := trimChars comp
  if t.length ≠ 0 then
    match parseInt16 t with
    | some n => .num n
    | none => .nan
  else .undefinedV

/-- `JMLDeltaAdapter.prototype.parseContext` on the context text. -/
def parseContextText (text : List Char) : List ParsedEntry :=
  (text.splitOn ';').map parseEntry

theorem toHexFuel_append (fuel : Nat) :
    ∀ (n : Nat) (acc : List Char),
      toHexFuel fuel n acc = toHexFuel fuel n [] ++ acc := by
  induction fuel with
  | zero => intro n acc; rfl
  | succ f ih =>
      intro n acc
      unfold toHexFuel
      by_cases hn : n = 0
      · simp [hn]
      · simp only [hn, if_neg hn]
        rw [ih (n / 16) (hexDigitChar (n % 16) :: acc),
            ih (n / 16) [hexDigitChar (n % 16)]]
        simp

theorem hexVal_hexDigitChar {m : Nat} (hm : m < 16) :
    hexVal (hexDigitChar m) = some m := by
  interval_cases m <;> decide

theorem toHexFuel_mem_hex (fuel : Nat) :
    ∀ (n : Nat) (acc : List Char), (∀ c ∈ acc, isHexDigit c = true) →
      ∀ c ∈ toHexFuel fuel n acc, isHexDigit c = true := by
  induction fuel with
  | zero => intro n acc hacc; exact hacc
  | succ f ih =>
      intro n acc hacc c hc
      unfold toHexFuel at hc
      by_cases hn : n = 0
      · rw [if_pos hn] at hc
        exact hacc c hc
      · rw [if_neg hn] at hc
        refine ih (n / 16) _ ?_ c hc
        intro d hd
        cases hd with
        | head =>
            simp [isHexDigit, hexVal_hexDigitChar (show n % 16 < 16 by omega)]
        | tail _ hd => exact hacc d hd

theorem toHex_mem_hex {n : Nat} : ∀ c ∈ toHex n, isHexDigit c = true :=
  toHexFuel_mem_hex (n + 1) n [] (by intro c hc; cases hc)

theorem hex_not_ws {c : Char} (h : isHexDigit c = true) : isWSChar c = false := by
  unfold isWSChar
  simp only [Bool.or_eq_false_iff, decide_eq_false_iff_not]
  simp only [isHexDigit, hexVal] at h
  split_ifs at h with h1 h2 h3
  · omega
  · omega
  · omega
  · simp at h

theorem hex_not_semi {c : Char} (h : isHexDigit c = true) : c ≠ ';' := by
  intro hc
  rw [hc] at h
  exact absurd h (by decide)

theorem dropWhile_eq_self_of_none {l : List Char}
    (h : ∀ c ∈ l, isWSChar c = false) : l.dropWhile isWSChar = l := by
  cases l with
  | nil => rfl
  | cons c cs =>
      rw [List.dropWhile_cons_of_neg]
      rw [h c (by simp)]
      simp

theorem trimChars_eq_self {l : List Char}
    (h : ∀ c ∈ l, isHexDigit c = true) : trimChars l = l := by
  unfold trimChars
  rw [dropWhile_eq_self_of_none (fun c hc => hex_not_ws (h c hc))]
  rw [dropWhile_eq_self_of_none (fun c hc =>
    hex_not_ws (h c (List.mem_reverse.mp hc)))]
  exact List.reverse_reverse l

theorem takeWhile_eq_self_of_all {l : List Char}
    (h : ∀ c ∈ l, isHexDigit c = true) : l.takeWhile isHexDigit = l := by
  induction l with
  | nil => rfl
  | cons c cs ih =>
      rw [List.takeWhile_cons_of_pos (by simp [h c (by simp)])]
      rw [ih (fun d hd => h d (by simp [hd]))]

theorem toHexFuel_val (fuel : Nat) :
    ∀ n : Nat, n < fuel →
      (toHexFuel fuel n []).foldl (fun a c => 16 * a + (hexVal c).getD 0) 0 = n ∧
      (n ≠ 0 → toHexFuel fuel n [] ≠ []) := by
  induction fuel with
  | zero => intro n hn; omega
  | succ f ih =>
      intro n hn
      unfold toHexFuel
      by_cases h0 : n = 0
      · simp [h0]
      · rw [if_neg h0]
        have hrec : n / 16 < f := by omega
        obtain ⟨hv, _⟩ := ih (n / 16) hrec
        rw [toHexFuel_append]
        constructor
        · rw [List.foldl_append, hv]
          simp [hexVal_hexDigitChar (show n % 16 < 16 by omega)]
          omega
        · intro _
          simp

theorem parseEntry_toHex {n : Nat} (hn : n ≠ 0) :
    parseEntry (toHex n) = .num n := by
  obtain ⟨hval, hne⟩ := toHexFuel_val (n + 1) n (by omega)
  have hhex : ∀ c ∈ toHex n, isHexDigit c = true := toHex_mem_hex
  unfold parseEntry
  rw [trimChars_eq_self hhex]
  have hlen : (toHex n).length ≠ 0 := by
    intro h
    exact (hne hn) (List.eq_nil_of_length_eq_zero h)
  rw [if_pos hlen]
  unfold parseInt16
  rw [takeWhile_eq_self_of_all hhex]
  have hie : (toHex n).isEmpty = false := by
    cases hl : toHex n with
    | nil => exact absurd hl (hne hn)
    | cons c cs => rfl
  simp only [hie, Bool.false_eq_true, if_neg, ite_false]
  rw [show toHex n = toHexFuel (n + 1) n [] from rfl] at *
  rw [hval]

/-- C7 counterexample: the claim as stated fails on the fingerprint
`[1, 0]` — `formatFingerprint` renders it as `"1;"`, and `parseContext`
maps the empty entry to JavaScript `undefined`, not to the number 0. -/
theorem c7_counterexample_zero_entry :
    parseContextText (formatFingerprint [1, 0]) ≠
      [ParsedEntry.num 1, ParsedEntry.num 0] ∧
    parseContextText (formatFingerprint [1, 0]) =
      [ParsedEntry.num 1, ParsedEntry.undefinedV] := by decide

/-- C7 (amended): serializing a non-empty fingerprint array and parsing the
text back yields an array of the same length in which every non-zero entry
is recovered exactly and every zero entry becomes `undefined` (which
consumers treat as an absent/zero hash); the exact inverse property holds
only up to that identification. -/
theorem c7_parse_format_fingerprint (parts : List Nat) (hne : parts ≠ []) :
    parseContextText (formatFingerprint parts) =
      parts.map (fun n => if n = 0 then ParsedEntry.undefinedV else ParsedEntry.num n) := by
  unfold parseContextText formatFingerprint
  have hsep : ∀ l ∈ parts.map (fun n => if n = 0 then [] else toHex n),
      ';' ∉ l := by
    intro l hl
    simp at hl
    obtain ⟨n, _, hn⟩ := hl
    by_cases h0 : n = 0
    · rw [h0] at hn
      simp at hn
      rw [hn]
      simp
    · rw [if_neg h0] at hn
      rw [← hn]
      intro hmem
      exact hex_not_semi (toHex_mem_hex ';' hmem) rfl
  have hne2 : parts.map (fun n => if n = 0 then [] else toHex n) ≠ [] := by
    simpa using hne
  rw [List.splitOn_intercalate _ ';' hsep hne2]
  rw [List.map_map]
  apply List.map_congr_left
  intro n _
  by_cases h0 : n = 0
  · simp [h0, parseEntry, trimChars, parseInt16]
  · simp only [Function.comp, if_neg h0]
    exact parseEntry_toHex h0

/-- Witness for C7 at the fingerprint `[26, 0]`. -/
theorem c7_parse_format_fingerprint_witness :
    parseContextText (formatFingerprint [26, 0]) =
      [26, 0].map (fun n => if n = 0 then ParsedEntry.undefinedV else ParsedEntry.num n) :=
  c7_parse_format_fingerprint [26, 0] (by decide)

/-! ## JsonML delta adapter (`JMLDeltaAdapter.adaptOperation` and
`TYPE_TAGS`)

A JsonML value with children, as the delta adapter walks it. -/

inductive JmlE where
  | element (tag : String) (attrs : List (String × String)) (children : List JmlE)
  | text (s : String)

/-- The two operation kinds.  Modelled from the spec: `delta.js` defining
`UPDATE_NODE_TYPE` / `UPDATE_FOREST_TYPE` is not under src/; §3 makes them a
closed two-element set. -/
inductive OpType where
  | updateNode
  | updateForest
deriving DecidableEq, Repr

/-- `TYPE_TAGS[tag]` as used by `adaptDocument`: the tag `node` maps to the
node-update type environment constant and `forest` to the forest-update
one.  (`TYPE_TAGS` also carries the reverse, numeric-keyed entries whose
values are the tag *strings*; the switch in `adaptOperation` rejects those
exactly like `undefined`, so both collapse to `none`.) -/
def typeTagOf : String → Option OpType := fun tag =>
  if tag = "node" then some .updateNode
  else if tag = "forest" then some .updateForest
  else none

/-- Modelled from the spec: `contextdelta.js` (`DetachedContextOperation`)
is not under src/; §3 gives the record `(type, path, remove, insert, head,
tail)`.  `remove`/`insert` hold the imported fragment payloads, `head`/`tail`
the parsed context fingerprints (`none` when the context element had no
text). -/
structure DetachedContextOperation where
  type : OpType
  path : List (Option Nat)
  remove : List JmlE
  insert : List JmlE
  head : Option (List ParsedEntry)
  tail : Option (List ParsedEntry)

/-- `jml.getAttribute(element, key)`: throws `SyntaxError` on a non-element
(`hasAttributes` rejects it), otherwise an object-property lookup. -/
def jmlGetAttribute : JmlE → String → Except String (Option String)
  | .text _, _ => .error "SyntaxError: invalid JsonML"
  | .element _ attrs _, key => .ok (assignAll attrs key)

/-- `jml.getChildren(node)`: throws `SyntaxError` on a non-element. -/
def jmlGetChildren : JmlE → Except String (List JmlE)
  | .text _ => .error "SyntaxError: invalid JsonML"
  | .element _ _ cs => .ok cs

/-- `JMLDeltaAdapter.prototype.nextElement`: shift nodes until an element
with the wanted tag appears; a text node stops the scan and is returned
itself (the loop only continues over elements). -/
def nextElement (tag : String) : List JmlE → Option JmlE × List JmlE
  | [] => (none, [])
  | n :: rest =>
      match n with
      | .element t a cs => if t = tag then (some (.element t a cs), rest)
                           else nextElement tag rest
      | .text s => (some (.text s), rest)

/-- `JMLDeltaAdapter.prototype.nextText`: shift past elements, return the
first text node. -/
def nextText : List JmlE → Option String
  | [] => none
  | .element _ _ _ :: rest => nextText rest
  | .text s :: _ => some s

/-- `JMLDeltaAdapter.prototype.parseContext`: take the first text child of
the context node and split it into fingerprint entries; `undefined` when
there is none. -/
def parseContext (node : JmlE) : Except String (Option (List ParsedEntry)) := do
  let children ← jmlGetChildren node
  match nextText children with
  | some s => pure (some (parseContextText s.data))
  | none => pure none

/-- `parseInt(component, 10)` on a path component. -/
def parseInt10 (s : String) : Option Nat :=
  let ds := s.data.takeWhile fun c => decide (48 ≤ c.toNat ∧ c.toNat ≤ 57)
  if ds.isEmpty then none
  else some (ds.foldl (fun a c => 10 * a + (c.toNat - 48)) 0)

/-- `JMLDeltaAdapter.prototype.adaptOperation(element, type)`: read the
`path` attribute, reject unsupported change types, then collect head
context, remove payload, insert payload and tail context in order.
`importFragment` re-wraps each payload child and keeps them all, so the
fragments are carried verbatim. -/
def adaptOperation (element : JmlE) (type? : Option OpType) :
    Except String DetachedContextOperation := do
  let pathAttr ← jmlGetAttribute element "path"
  let ty ← match type? with
    | some t => pure t
    | none => Except.error "Encountered unsupported change type"
  let path ← match pathAttr with
    | none => Except.error "TypeError: Cannot read properties of undefined"
    | some s => pure (if s = "" then ([] : List (Option Nat))
                      else (s.splitOn "/").map parseInt10)
  let children ← jmlGetChildren element
  let (n1, c1) := nextElement "context" children
  let head ← match n1 with
    | some nd => parseContext nd
    | none => Except.error "SyntaxError: invalid JsonML"
  let (n2, c2) := nextElement "remove" c1
  let remove ← match n2 with
    | some nd => jmlGetChildren nd
    | none => Except.error "SyntaxError: invalid JsonML"
  let (n3, c3) := nextElement "insert" c2
  let insert ← match n3 with
    | some nd => jmlGetChildren nd
    | none => Except.error "SyntaxError: invalid JsonML"
  let (n4, _) := nextElement "context" c3
  let tail ← match n4 with
    | some nd => parseContext nd
    | none => Except.error "SyntaxError: invalid JsonML"
  pure ⟨ty, path, remove, insert, head, tail⟩

/-- C8: the tag `node` maps to the node-update type, `forest` to the
forest-update type, and for an operation element with any other tag
`adaptOperation` fails with the unsupported-change-type error before any
operation is constructed. -/
theorem c8_adapt_operation_dispatch :
    typeTagOf "node" = some OpType.updateNode ∧
    typeTagOf "forest" = some OpType.updateForest ∧
    (∀ (tag : String) (attrs : List (String × String)) (cs : List JmlE),
      tag ≠ "node" → tag ≠ "forest" →
      adaptOperation (.element tag attrs cs) (typeTagOf tag) =
        .error "Encountered unsupported change type") := by
  refine ⟨rfl, rfl, ?_⟩
  intro tag attrs cs h1 h2
  unfold adaptOperation typeTagOf jmlGetAttribute
  simp only [h1, h2, if_false, ite_false]
  rfl

/-- Witness for C8: an operation element tagged `banana` is rejected. -/
theorem c8_adapt_operation_dispatch_witness :
    adaptOperation (.element "banana" [] []) (typeTagOf "banana") =
      .error "Encountered unsupported change type" :=
  c8_adapt_operation_dispatch.2.2 "banana" [] [] (by decide) (by decide)

/-! ## `JsonML.appendChild` (jsonml-utils)

A JavaScript value passed as a child.  `str s` stands for a primitive
(string, number or boolean) whose `String(child)` conversion is `s`; `arr`
is an array; `obj` a plain non-array object (e.g. an attributes object);
`nullv`/`undefinedV` are `null`/`undefined`.  The parent is the JsonML array
itself (tag, optional attributes object, then children). -/

inductive JVal where
  | str (s : String)
  | arr (elems : List JVal)
  | obj
  | nullv
  | undefinedV

def isStrV : JVal → Bool
  | .str _ => true
  | _ => false

/-- The trailing string of an array, when its last entry is a string
(`'string' === typeof parent[parent.length-1]`). -/
def lastStr? (l : List JVal) : Option String :=
  match l.getLast? with
  | some (.str t) => some t
  | _ => none

mutual

/-- `JsonML.appendChild(parent, child)`.  A fragment (`['', ...]`) has its
members appended one by one; an array child must be an element (string
head) and is pushed; a non-array object reaches `JsonML.isRaw`, which this
source never defines, so the call throws a `TypeError`; `null`/`undefined`
are ignored; anything else is converted to a string — concatenated onto a
trailing string child when one exists (`parent.length > 1`), discarded when
empty (unless the parent array is completely empty), pushed otherwise. -/
def appendChild (parent : List JVal) (child : JVal) : Except String (List JVal) :=
  match child with
  | .arr (.str s :: rest) =>
      if s = "" then appendList parent rest
      else .ok (parent ++ [.arr (.str s :: rest)])
  | .arr [] => .error "SyntaxError: invalid JsonML"
  | .arr (.arr _ :: _) => .error "SyntaxError: invalid JsonML"
  | .arr (.obj :: _) => .error "SyntaxError: invalid JsonML"
  | .arr (.nullv :: _) => .error "SyntaxError: invalid JsonML"
  | .arr (.undefinedV :: _) => .error "SyntaxError: invalid JsonML"
  | .obj => .error "TypeError: JsonML.isRaw is not a function"
  | .nullv => .ok parent
  | .undefinedV => .ok parent
  | .str s =>
      if s = "" then
        if parent.length = 0 then .ok (parent ++ [.str s]) else .ok parent
      else if (lastStr? parent).isSome ∧ parent.length > 1 then
        .ok (parent.dropLast ++ [.str ((lastStr? parent).getD "" ++ s)])
      else .ok (parent ++ [.str s])

/-- The fragment loop: append each member in order, first failure
propagates. -/
def appendList (parent : List JVal) : List JVal → Except String (List JVal)
  | [] => .ok parent
  | c :: cs =>
      match appendChild parent c with
      | .ok p2 => appendList p2 cs
      | .error e => .error e

end

/-- No two adjacent strings in the list. -/
def noAdjStr : List JVal → Bool
  | .str _ :: .str _ :: _ => false
  | _ :: rest => noAdjStr rest
  | [] => true

def lastIsStr (l : List JVal) : Bool := (lastStr? l).isSome

theorem noAdjStr_append_one (x : JVal) :
    ∀ l : List JVal, noAdjStr l = true →
      (isStrV x = false ∨ lastIsStr l = false) → noAdjStr (l ++ [x]) = true := by
  intro l
  induction l with
  | nil =>
      intro _ _
      cases x <;> rfl
  | cons a t ih =>
      intro h hx
      cases t with
      | nil =>
          cases a <;> cases x <;>
            simp [noAdjStr, lastIsStr, lastStr?, isStrV, List.getLast?] at hx ⊢
      | cons b t2 =>
          have hlast : lastIsStr (a :: b :: t2) = lastIsStr (b :: t2) := by
            unfold lastIsStr lastStr?
            rw [List.getLast?_cons_cons]
          rw [hlast] at hx
          cases a <;> cases b <;>
            simp [noAdjStr] at h ⊢ <;>
            exact ih h hx

theorem noAdjStr_last_str_congr (a b : String) :
    ∀ l : List JVal, noAdjStr (l ++ [.str a]) = noAdjStr (l ++ [.str b]) := by
  intro l
  induction l with
  | nil => rfl
  | cons c t ih =>
      cases t with
      | nil => cases c <;> simp [noAdjStr]
      | cons d t2 =>
          cases c <;> cases d <;> simp [noAdjStr] <;> exact ih

theorem head?_append_left {p q : List JVal} (hp : p ≠ []) :
    (p ++ q).head? = p.head? := by
  cases p with
  | nil => exact absurd rfl hp
  | cons a t => rfl

theorem drop_one_append {p q : List JVal} (hp : p ≠ []) :
    (p ++ q).drop 1 = p.drop 1 ++ q := by
  cases p with
  | nil => exact absurd rfl hp
  | cons a t => simp

theorem lastStr?_some {p : List JVal} {t : String} (h : lastStr? p = some t) :
    p.getLast? = some (.str t) := by
  unfold lastStr? at h
  cases hl : p.getLast? with
  | none => rw [hl] at h; exact absurd h (by simp)
  | some v =>
      rw [hl] at h
      cases v with
      | str t2 => simp at h; rw [h]
      | arr a => exact absurd h (by simp)
      | obj => exact absurd h (by simp)
      | nullv => exact absurd h (by simp)
      | undefinedV => exact absurd h (by simp)

theorem lastIsStr_drop_one {p : List JVal} (h : lastIsStr p = false) :
    lastIsStr (p.drop 1) = false := by
  cases p with
  | nil => rfl
  | cons a t =>
      cases t with
      | nil => rfl
      | cons b t2 =>
          simp only [List.drop_succ_cons, List.drop_zero]
          simpa [lastIsStr, lastStr?, List.getLast?_cons_cons] using h

/-- Preservation shape of one `appendChild` (and of the fragment loop):
the parent stays non-empty, keeps its head (the tag), and keeps the
no-two-adjacent-string-children property. -/
theorem append_pres (n : Nat) :
    (∀ c : JVal, sizeOf c ≤ n → ∀ p p' : List JVal, p ≠ [] →
      appendChild p c = .ok p' →
      p' ≠ [] ∧ p'.head? = p.head? ∧
        (noAdjStr (p.drop 1) = true → noAdjStr (p'.drop 1) = true)) ∧
    (∀ cs : List JVal, sizeOf cs ≤ n → ∀ p p' : List JVal, p ≠ [] →
      appendList p cs = .ok p' →
      p' ≠ [] ∧ p'.head? = p.head? ∧
        (noAdjStr (p.drop 1) = true → noAdjStr (p'.drop 1) = true)) := by
  induction n with
  | zero =>
      constructor
      · intro c hc
        exact absurd hc (by cases c <;> simp_arith)
      · intro cs hc
        exact absurd hc (by cases cs <;> simp_arith)
  | succ n ih =>
      have push_ok : ∀ (p : List JVal) (x : JVal), p ≠ [] →
          (isStrV x = false ∨ lastIsStr p = false ∨ p.drop 1 = []) →
          (p ++ [x]) ≠ [] ∧ (p ++ [x]).head? = p.head? ∧
            (noAdjStr (p.drop 1) = true → noAdjStr ((p ++ [x]).drop 1) = true) := by
        intro p x hp hcase
        refine ⟨by simp, head?_append_left hp, ?_⟩
        intro hno
        rw [drop_one_append hp]
        rcases hcase with hx | hl | he
        · exact noAdjStr_append_one x _ hno (Or.inl hx)
        · exact noAdjStr_append_one x _ hno (Or.inr (lastIsStr_drop_one hl))
        · rw [he]
          cases x <;> rfl
      constructor
      · intro c hc p p' hp h
        cases c with
        | str s =>
            by_cases hs : s = ""
            · subst hs
              simp only [appendChild, if_pos rfl] at h
              by_cases hl : p.length = 0
              · exact absurd (List.eq_nil_of_length_eq_zero hl) hp
              · simp only [hl, if_neg hl, ite_false] at h
                obtain rfl : p = p' := by simpa using h
                exact ⟨hp, rfl, fun hno => hno⟩
            · simp only [appendChild, if_neg hs] at h
              by_cases hc2 : (lastStr? p).isSome ∧ p.length > 1
              · rw [if_pos hc2] at h
                obtain ⟨hsome, hlen⟩ := hc2
                obtain ⟨t, hlast⟩ := Option.isSome_iff_exists.mp hsome
                rw [hlast] at h
                simp only [Option.getD_some] at h
                obtain rfl : p.dropLast ++ [.str (t ++ s)] = p' := by simpa using h
                obtain ⟨q, rfl⟩ := List.getLast?_eq_some_iff.mp (lastStr?_some hlast)
                have hq : q ≠ [] := by
                  intro he
                  rw [he] at hlen
                  simp at hlen
                rw [List.dropLast_concat]
                refine ⟨by simp, ?_, ?_⟩
                · rw [head?_append_left hq, head?_append_left hq]
                · intro hno
                  rw [drop_one_append hq] at hno ⊢
                  rw [← noAdjStr_last_str_congr t (t ++ s)]
                  exact hno
              · rw [if_neg hc2] at h
                obtain rfl : p ++ [.str s] = p' := by simpa using h
                rw [Classical.not_and_iff_or_not_not] at hc2
                rcases hc2 with hnone | hlen
                · refine push_ok p _ hp (Or.inr (Or.inl ?_))
                  unfold lastIsStr
                  simpa using hnone
                · refine push_ok p _ hp (Or.inr (Or.inr ?_))
                  cases p with
                  | nil => rfl
                  | cons a u =>
                      cases u with
                      | nil => rfl
                      | cons b u2 => exact absurd (by simp) hlen
        | arr elems =>
            cases elems with
            | nil => simp [appendChild] at h
            | cons e rest =>
                cases e with
                | str s =>
                    simp only [appendChild] at h
                    by_cases hs : s = ""
                    · rw [if_pos hs] at h
                      have hsz : sizeOf rest ≤ n := by
                        simp only [JVal.arr.sizeOf_spec, List.cons.sizeOf_spec,
                          JVal.str.sizeOf_spec] at hc
                        omega
                      exact ih.2 rest hsz p p' hp h
                    · rw [if_neg hs] at h
                      obtain rfl : p ++ [.arr (.str s :: rest)] = p' := by simpa using h
                      exact push_ok p _ hp (Or.inl rfl)
                | arr a =>
                    simp [appendChild] at h
                | obj =>
                    simp [appendChild] at h
                | nullv =>
                    simp [appendChild] at h
                | undefinedV =>
                    simp [appendChild] at h
        | obj => simp [appendChild] at h
        | nullv =>
            obtain rfl : p = p' := by simpa [appendChild] using h
            exact ⟨hp, rfl, fun hno => hno⟩
        | undefinedV =>
            obtain rfl : p = p' := by simpa [appendChild] using h
            exact ⟨hp, rfl, fun hno => hno⟩
      · intro cs hc p p' hp h
        cases cs with
        | nil =>
            obtain rfl : p = p' := by simpa [appendList] using h
            exact ⟨hp, rfl, fun hno => hno⟩
        | cons c cs2 =>
            simp only [appendList] at h
            cases hac : appendChild p c with
            | error e => rw [hac] at h; exact absurd h (by simp)
            | ok p2 =>
                rw [hac] at h
                have hsz1 : sizeOf c ≤ n := by
                  simp only [List.cons.sizeOf_spec] at hc
                  omega
                have hsz2 : sizeOf cs2 ≤ n := by
                  simp only [List.cons.sizeOf_spec] at hc
                  omega
                obtain ⟨hne1, hh1, hn1⟩ := ih.1 c hsz1 p p2 hp hac
                obtain ⟨hne2, hh2, hn2⟩ := ih.2 cs2 hsz2 p2 p' hne1 h
                exact ⟨hne2, hh2.trans hh1, fun hno => hn2 (hn1 hno)⟩

/-- JsonML arrays obtainable from the single-element array `[tag]` through
`appendChild` calls alone. -/
inductive BuiltFrom (tag : String) : List JVal → Prop
  | base : BuiltFrom tag [.str tag]
  | step {p c p'} : BuiltFrom tag p → appendChild p c = .ok p' → BuiltFrom tag p'

/-- C10: a non-null, non-object child is converted to a string; when the
element's last entry is already a string (and the array holds more than the
tag) the two are concatenated into a single text child; an empty string is
discarded whenever the element has any content; and consequently an element
built solely through `appendChild` never contains two adjacent string
children. -/
theorem c10_append_child_strings :
    (∀ (q : List JVal) (t s : String), q ≠ [] → s ≠ "" →
      appendChild (q ++ [.str t]) (.str s) = .ok (q ++ [.str (t ++ s)])) ∧
    (∀ p : List JVal, p ≠ [] → appendChild p (.str "") = .ok p) ∧
    (∀ (tag : String) (p : List JVal), BuiltFrom tag p →
      noAdjStr (p.drop 1) = true) := by
  refine ⟨?_, ?_, ?_⟩
  · intro q t s hq hs
    simp only [appendChild, if_neg hs]
    have hlast : lastStr? (q ++ [.str t]) = some t := by
      unfold lastStr?
      rw [List.getLast?_concat]
    have hlen : (q ++ [JVal.str t]).length > 1 := by
      cases q with
      | nil => exact absurd rfl hq
      | cons a u => simp
    rw [if_pos ⟨by simp [hlast], hlen⟩, hlast]
    simp [List.dropLast_concat]
  · intro p hp
    have hl : ¬ p.length = 0 := by
      intro h
      exact hp (List.eq_nil_of_length_eq_zero h)
    simp [appendChild, hl]
  · intro tag p hb
    have hinv : p ≠ [] ∧ noAdjStr (p.drop 1) = true := by
      induction hb with
      | base => exact ⟨by simp, rfl⟩
      | step hb hok ih =>
          obtain ⟨hne, hno⟩ := ih
          obtain ⟨hne', _, hpres⟩ :=
            (append_pres (sizeOf _)).1 _ (Nat.le_refl _) _ _ hne hok
          exact ⟨hne', hpres hno⟩
    exact hinv.2

/-- Witness for C10: appending `"b"` to `["p", "a"]` concatenates into
`["p", "ab"]`, appending `""` leaves the array unchanged, and the array
built by `appendChild(["ul"], ["li"]); appendChild(["ul",["li"]], "x")` has
no adjacent string children. -/
theorem c10_append_child_strings_witness :
    appendChild [.str "p", .str "a"] (.str "b") =
      .ok [.str "p", .str "ab"] ∧
    appendChild [.str "p", .str "a"] (.str "") =
      .ok [.str "p", .str "a"] ∧
    noAdjStr ([JVal.str "ul", .arr [.str "li"], .str "x"].drop 1) = true :=
  ⟨c10_append_child_strings.1 [.str "p"] "a" "b" (by simp) (by simp),
    c10_append_child_strings.2.1 [.str "p", .str "a"] (by simp),
    c10_append_child_strings.2.2 "ul" [JVal.str "ul", .arr [.str "li"], .str "x"]
      (@BuiltFrom.step "ul" [JVal.str "ul", .arr [.str "li"]] (.str "x")
        [JVal.str "ul", .arr [.str "li"], .str "x"]
        (@BuiltFrom.step "ul" [JVal.str "ul"] (.arr [.str "li"])
          [JVal.str "ul", .arr [.str "li"]]
          BuiltFrom.base (by simp [appendChild]))
        (by simp [appendChild, lastStr?]))⟩

/-! ## CLI diff driver `saveFile`

The driver's effect on the filesystem is modelled as the list of file
writes it performs. -/

/-- One file write: target path and serialized content. -/
structure FileWrite where
  path : String
  content : String
deriving DecidableEq, Repr

/-- `saveFile(description, filepath, encoding, data, payloadhandler,
docadapter)` from the CLI diff driver: the function body is empty, so no
serialization happens and nothing is written, whatever the arguments. -/
def saveFile {α : Type} (_description _filepath _encoding : String) (_data : α)
    (_payloadhandler : α → String) : List FileWrite := []

/-- Modelled from the spec: the driver must serialize the delta via the
payload handler and write the result to the patch file. -/
def specSaveFile {α : Type} (filepath : String) (data : α)
    (payloadhandler : α → String) : List FileWrite :=
  [⟨filepath, payloadhandler data⟩]

/-- C9 evidence: the CLI driver's `saveFile` performs no write at all, while
the behaviour the spec mandates writes the serialized delta to the patch
file. -/
theorem c9_savefile_writes_nothing :
    saveFile "patch file" "patch.xml" "UTF-8" "delta-doc" (fun s => s) = [] ∧
    specSaveFile "patch.xml" "delta-doc" (fun s => s) =
      [⟨"patch.xml", "delta-doc"⟩] ∧
    saveFile "patch file" "patch.xml" "UTF-8" "delta-doc" (fun s => s) ≠
      specSaveFile "patch.xml" "delta-doc" (fun s => s) :=
  ⟨rfl, rfl, by decide⟩

/-! ## JsonML operation handlers (`jmlhandler`)

`JMLTreeSequenceOperationHandler.toggle` manipulates the parent's JsonML
array through `findChild`/`removeChild`/`insertBefore` closures;
`JMLNodeReplaceOperationHandler.toggle` applies DOM node operations.
JavaScript `===` on JsonML values compares strings by value and arrays by
object identity, so arrays carry an id. -/

inductive JmlRef where
  | str (s : String)
  | arrv (id : Nat) (elems : List JmlRef)

/-- JavaScript `===` on JsonML values. -/
def jsEq : JmlRef → JmlRef → Bool
  | .str a, .str b => a == b
  | .arrv i _, .arrv j _ => i == j
  | _, _ => false

/-- The `findChild` closure: an `undefined` child yields index 0; otherwise
the first `===`-equal entry of the array (including the tag at index 0), or
failure ("Child not found!!"). -/
def findChild (node : List JmlRef) (child : Option JmlRef) : Option Nat :=
  match child with
  | none => some 0
  | some c => node.findIdx? (fun x => jsEq x c)

/-- The `removeChild` closure: `node.splice(findChild(node, child), 1)`. -/
def removeChild (node : List JmlRef) (child : JmlRef) :
    Except String (List JmlRef) :=
  match findChild node (some child) with
  | some i => .ok (node.eraseIdx i)
  | none => .error "Child not found!!"

/-- The `insertBefore` closure: `node.splice(i, 0, [newone])` — note the
inserted value is a fresh array *wrapping* `newone`, not `newone` itself. -/
def insertBefore (fresh : Nat) (node : List JmlRef) (newone : JmlRef)
    (before : Option JmlRef) : Except String (List JmlRef) :=
  match findChild node before with
  | some i => .ok (node.insertIdx i (.arrv fresh [newone]))
  | none => .error "Child not found!!"

def removeAll (node : List JmlRef) : List JmlRef → Except String (List JmlRef)
  | [] => .ok node
  | c :: cs => do removeAll (← removeChild node c) cs

def insertAll (fresh : Nat) (node : List JmlRef) (ins : List JmlRef)
    (before : Option JmlRef) : Except String (List JmlRef × Nat) :=
  match ins with
  | [] => .ok (node, fresh)
  | c :: cs =>
      match insertBefore fresh node c before with
      | .ok node2 => insertAll (fresh + 1) node2 cs before
      | .error e => .error e

/-- State of a `JMLTreeSequenceOperationHandler`: the current contents of
the parent's JsonML array, the `before` anchor, the old and new node lists,
the active flag (`this.state`, initially `undefined`, which behaves as
`false`) and an id supply for the arrays `insertBefore` mints. -/
structure SeqHunk where
  parElems : List JmlRef
  before : Option JmlRef
  oldnodes : List JmlRef
  newnodes : List JmlRef
  state : Bool
  fresh : Nat

/-- `JMLTreeSequenceOperationHandler.prototype.toggle`: remove all entries
of one list from the parent array, then insert the other list's entries
(each wrapped in a fresh array) before the anchor, then flip the flag. -/
def seqToggle (h : SeqHunk) : Except String SeqHunk := do
  let remove := if h.state then h.newnodes else h.oldnodes
  let insert := if h.state then h.oldnodes else h.newnodes
  let elems1 ← removeAll h.parElems remove
  let (elems2, fresh2) ← insertAll h.fresh elems1 insert h.before
  pure { h with parElems := elems2, fresh := fresh2, state := !h.state }

/-- State of a `JMLNodeReplaceOperationHandler`. -/
structure ReplHunk where
  orignode : JmlRef
  changednode : JmlRef
  state : Bool

/-- DOM property access on a JsonML value: JsonML nodes are arrays or
strings, which have none of the DOM properties (`ownerDocument`,
`parentNode`, `firstChild`) this handler reads, so every access yields
`undefined`. -/
def domProp (_v : JmlRef) (_name : String) : Option JmlRef := none

/-- `JMLNodeReplaceOperationHandler.prototype.toggle`: evaluates
`fromnode.ownerDocument.documentElement`; `fromnode.ownerDocument` is
`undefined` on a JsonML value, so the member access throws. -/
def jmlNodeReplaceToggle (h : ReplHunk) : Except String ReplHunk :=
  let fromnode := if h.state then h.changednode else h.orignode
  match domProp fromnode "ownerDocument" with
  | none =>
      .error "TypeError: Cannot read properties of undefined (reading documentElement)"
  | some _ => .error "unreachable: JsonML values have no ownerDocument"

/-- A forest-update hunk on `["ul", ["li", "a"]]` replacing `["li", "a"]`
(array id 1) by `["li", "b"]` (array id 2), anchored at the end of the
child list (`before` is the child past the removed run, here absent). -/
def c2hunk : SeqHunk :=
  ⟨[.str "ul", .arrv 1 [.str "li", .str "a"]], none,
    [.arrv 1 [.str "li", .str "a"]], [.arrv 2 [.str "li", .str "b"]],
    false, 100⟩

/-- C2 evidence: toggling a JsonML tree-sequence hunk twice does not return
the document to a byte-identical serialization — the first toggle inserts
the new node wrapped in an extra array and (because `before` is undefined)
at array index 0, before the tag; the second toggle then cannot find the
node it is supposed to remove and throws "Child not found!!".  The JsonML
node-replace hunk's toggle always throws a `TypeError`, since it applies
DOM node operations to JsonML values. -/
theorem c2_toggle_twice_fails :
    ((seqToggle c2hunk).bind seqToggle) = .error "Child not found!!" ∧
    (seqToggle c2hunk).map SeqHunk.parElems =
      .ok [.arrv 100 [.arrv 2 [.str "li", .str "b"]], .str "ul"] ∧
    jmlNodeReplaceToggle ⟨.str "p", .str "q", false⟩ =
      .error "TypeError: Cannot read properties of undefined (reading documentElement)" :=
  ⟨rfl, rfl, rfl⟩

/-! ## Diff / apply round-trip (C1)

Modelled from the spec: the diff pipeline (`xcc.js`, `delta.js`,
`contextdelta.js`, the patch applier) is not under src/ — only the CLI
driver that wires it up is.  Following §3, §4.E, §4.G and §7:

* A tree is an ordered rooted tree over an abstract payload value
  (tag+attributes for an element, text for a text node).
* The matcher (§4.E) pairs the two roots unconditionally and then, below
  each matched pair, runs a top-down pass — for each child of `a` in
  order, the first not-yet-matched child of `b` that is subtree-equal is
  taken (the tie-break: earlier child index wins; `eqT` is treeHash
  equality plus a structural recheck, i.e. structural equality, and the
  two identical subtrees count as paired node-by-node) — and a bottom-up
  pass greedy-matching the still unmatched children of `a` against the
  unmatched children of the partner `b` by node-value equality `eqN`.
* The delta editor (§4.G) walks the matching.  Siblings that are
  unmatched, or matched out of order (partners that do not form a
  contiguous run under the same parent in B — reorderings are expressed
  as delete+insert pairs), are grouped into contiguous maximal runs;
  each run becomes one `UPDATE_FOREST` operation with `remove` = that
  run in A, `insert` = the corresponding run in B, anchored at
  `(parent(run), first index of run)` — on the wire the path of the
  operation is the path of the anchor parent followed by that index,
  here kept as the `path`/`anchor` fields.  Matched pairs kept in place
  are diffed recursively at their child index; a matched pair whose
  payload values differ yields an `UPDATE_NODE` — this arises only for
  unconditionally paired roots, since every pair produced by the two
  passes is value-equal by construction, and for such a pair the kept
  children align one-to-one while the runs carry the rest.
* Applying an `UPDATE_NODE` replaces the payload of the addressed node
  (children kept) after checking the old value; applying an
  `UPDATE_FOREST` splices the addressed child range — the `remove`
  forest is checked against the children at the anchor index
  (ApplyPrecondition) and replaced by the `insert` forest.  Operations
  are emitted so that every path is valid when its turn comes: child
  operations precede the sibling-run splices of the same parent, and
  the splices of one parent run right-to-left. -/

inductive DTree (α : Type) where
  | node (label : α) (children : List (DTree α))

/-- Payload value of the root of a subtree (`eqN` compares these). -/
def DTree.label : DTree α → α
  | .node v _ => v

inductive DOp (α : Type) where
  | updateNode (path : List Nat) (remove ins : α)
  | updateForest (path : List Nat) (anchor : Nat) (remove ins : List (DTree α))

/-- Re-anchor an operation below child index `i`. -/
def DOp.push (i : Nat) : DOp α → DOp α
  | .updateNode p r n => .updateNode (i :: p) r n
  | .updateForest p a r n => .updateForest (i :: p) a r n

mutual

/-- Structural tree equality (`eqT`: treeHash equality together with the
structural recheck in document order). -/
def DTree.eqb [DecidableEq α] : DTree α → DTree α → Bool
  | .node v cs, .node w ds => v = w && DTree.eqbList cs ds

def DTree.eqbList [DecidableEq α] : List (DTree α) → List (DTree α) → Bool
  | [], [] => true
  | t :: ts, u :: us => DTree.eqb t u && DTree.eqbList ts us
  | _, _ => false

end

/-- Walk a path of child indices and rewrite the subtree there; fail when
an index is out of range (InvalidTree/ParameterError). -/
def applyAux (f : DTree α → Option (DTree α)) : List Nat → DTree α → Option (DTree α)
  | [], t => f t
  | i :: p, .node v cs =>
      match cs[i]? with
      | some c =>
          match applyAux f p c with
          | some c2 => some (.node v (cs.set i c2))
          | none => none
      | none => none

/-- Apply one operation: `UPDATE_NODE` replaces the payload value of the
addressed node (children kept) after checking the old value;
`UPDATE_FOREST` replaces the `remove.length` children of the addressed
node starting at the anchor index by the inserted forest, after checking
the removed forest against that child range (ApplyPrecondition). -/
def applyOp [DecidableEq α] (o : DOp α) (t : DTree α) : Option (DTree α) :=
  match o with
  | .updateNode p r n =>
      applyAux (fun u => match u with
        | .node v cs => if r = v then some (.node n cs) else none) p t
  | .updateForest p a r n =>
      applyAux (fun u => match u with
        | .node v cs =>
            if a ≤ cs.length ∧ DTree.eqbList ((cs.drop a).take r.length) r = true
            then some (.node v (cs.take a ++ n ++ cs.drop (a + r.length)))
            else none) p t

/-- Apply a patch: operations in order, first failure aborts. -/
def applyOps [DecidableEq α] : List (DOp α) → DTree α → Option (DTree α)
  | [], t => some t
  | o :: os, t =>
      match applyOp o t with
      | some t2 => applyOps os t2
      | none => none

/-- One segment of the editor's decomposition of a matched pair's
children: a matched pair kept in place (with its A-side child index), or
a contiguous maximal run of removed/inserted siblings anchored at an
A-side child index. -/
inductive Seg (α : Type) where
  | kept (i : Nat) (x y : DTree α)
  | run (i : Nat) (removeRun insertRun : List (DTree α))

/-- A-side forest of a decomposition. -/
def segsA : List (Seg α) → List (DTree α)
  | [] => []
  | .kept _ x _ :: t => x :: segsA t
  | .run _ rem _ :: t => rem ++ segsA t

/-- A-side forest after each kept pair has been rewritten to its B side
(the runs not yet spliced). -/
def segsA2 : List (Seg α) → List (DTree α)
  | [] => []
  | .kept _ _ y :: t => y :: segsA2 t
  | .run _ rem _ :: t => rem ++ segsA2 t

/-- B-side forest of a decomposition. -/
def segsB : List (Seg α) → List (DTree α)
  | [] => []
  | .kept _ _ y :: t => y :: segsB t
  | .run _ _ ins :: t => ins ++ segsB t

/-- Anchor consistency: every segment is anchored at the number of A-side
siblings preceding it. -/
def SegsOk : Nat → List (Seg α) → Prop
  | _, [] => True
  | ofs, .kept i _ _ :: t => i = ofs ∧ SegsOk (ofs + 1) t
  | ofs, .run i rem _ :: t => i = ofs ∧ SegsOk (ofs + rem.length) t

/-- First index (counting from the accumulator) not yet used whose
element satisfies the predicate — §4.E's tie-break rule: the earlier
child index wins. -/
def pickFirstFrom (p : DTree α → Bool) (used : List Nat) :
    Nat → List (DTree α) → Option Nat
  | _, [] => none
  | j, y :: ys =>
      if j ∉ used ∧ p y = true then some j
      else pickFirstFrom p used (j + 1) ys

/-- §4.E top-down pass below one matched pair: for each child of `a` in
order, the first unmatched subtree-equal (`eqT`) child of the partner;
returns the partner assignment and the used B indices. -/
def passTD [DecidableEq α] (bs : List (DTree α)) :
    List (DTree α) → List Nat → List (Option Nat) × List Nat
  | [], used => ([], used)
  | x :: rest, used =>
      match pickFirstFrom (fun y => DTree.eqb x y) used 0 bs with
      | some j =>
          let r := passTD bs rest (used ++ [j])
          (some j :: r.1, r.2)
      | none =>
          let r := passTD bs rest used
          (none :: r.1, r.2)

/-- §4.E bottom-up pass: children left unmatched by the top-down pass are
greedy-matched by node-value equality `eqN` against the still unmatched
children of the parent's partner. -/
def passBU [DecidableEq α] (bs : List (DTree α)) :
    List (DTree α) → List (Option Nat) → List Nat → List (Option Nat)
  | [], _, _ => []
  | _ :: rest, some j :: ms, used => some j :: passBU bs rest ms used
  | x :: rest, none :: ms, used =>
      match pickFirstFrom (fun y => decide (x.label = y.label)) used 0 bs with
      | some j => some j :: passBU bs rest ms (used ++ [j])
      | none => none :: passBU bs rest ms used
  | _ :: rest, [], used => passBU bs rest [] used

/-- The matching restricted to the children of one matched pair: the
B-side partner index of each A-side child (top-down pass, then bottom-up
pass over the leftovers). -/
def partnerAssign [DecidableEq α] (as bs : List (DTree α)) : List (Option Nat) :=
  let td := passTD bs as []
  passBU bs as td.1 td.2

/-- §4.G sibling walk below one matched pair.  `bs` is the partner's
child forest; A's children are walked with their partner indices.  A
matched child is kept when its partner continues the run of kept
partners in order (`jCur`, the index after the previous kept partner,
must not have passed it); an unmatched child — or one matched out of
order, a reordering expressed as delete+insert — joins the pending run.
`i` is the next A-side child index, `iRun` the anchor of the pending
run, `pend` its A side.  A run is closed with the B siblings between the
enclosing kept partners as its insert side, so the emitted runs are
exactly the contiguous maximal runs of not-kept siblings on both sides. -/
def segWalk (bs : List (DTree α)) :
    List (DTree α) → List (Option Nat) → Nat → Nat → List (DTree α) → Nat →
      List (Seg α)
  | [], _, _, iRun, pend, jCur =>
      if pend.length = 0 ∧ (bs.drop jCur).length = 0 then []
      else [Seg.run iRun pend (bs.drop jCur)]
  | x :: rest, some j :: ms, i, iRun, pend, jCur =>
      if jCur ≤ j then
        match bs.drop j with
        | y :: _ =>
            (if pend.length = 0 ∧ jCur = j then []
             else [Seg.run iRun pend ((bs.drop jCur).take (j - jCur))]) ++
            (Seg.kept i x y :: segWalk bs rest ms (i + 1) (i + 1) [] (j + 1))
        | [] => segWalk bs rest ms (i + 1) iRun (pend ++ [x]) jCur
      else segWalk bs rest ms (i + 1) iRun (pend ++ [x]) jCur
  | x :: rest, none :: ms, i, iRun, pend, jCur =>
      segWalk bs rest ms (i + 1) iRun (pend ++ [x]) jCur
  | x :: rest, [], i, iRun, pend, jCur =>
      segWalk bs rest [] (i + 1) iRun (pend ++ [x]) jCur

/-- Decomposition of the children of a matched pair into kept matched
pairs and contiguous maximal removed/inserted runs (§4.E matching plus
§4.G run extraction). -/
def segments [DecidableEq α] (as bs : List (DTree α)) : List (Seg α) :=
  segWalk bs as (partnerAssign as bs) 0 0 [] 0

/-- The `UPDATE_FOREST` operations of a decomposition, emitted
right-to-left so that every splice's anchor index is still valid when it
is applied. -/
def runOpsRev : List (Seg α) → List (DOp α)
  | [] => []
  | .kept _ _ _ :: t => runOpsRev t
  | .run i rem ins :: t => runOpsRev t ++ [.updateForest [] i rem ins]

theorem segWalk_A {α : Type} (bs : List (DTree α)) :
    ∀ (as : List (DTree α)) (ms : List (Option Nat)) (i iRun : Nat)
      (pend : List (DTree α)) (jCur : Nat),
      segsA (segWalk bs as ms i iRun pend jCur) = pend ++ as := by
  intro as
  induction as with
  | nil =>
      intro ms i iRun pend jCur
      simp only [segWalk]
      by_cases h : pend.length = 0 ∧ (bs.drop jCur).length = 0
      · rw [if_pos h, List.length_eq_zero.mp h.1]
        rfl
      · rw [if_neg h]
        simp [segsA]
  | cons x rest ih =>
      intro ms i iRun pend jCur
      cases ms with
      | nil =>
          simp only [segWalk]
          rw [ih]
          simp
      | cons m ms2 =>
          cases m with
          | none =>
              simp only [segWalk]
              rw [ih]
              simp
          | some j =>
              simp only [segWalk]
              by_cases hj : jCur ≤ j
              · rw [if_pos hj]
                cases hdj : bs.drop j with
                | nil =>
                    rw [ih]
                    simp
                | cons y ys =>
                    by_cases hskip : pend.length = 0 ∧ jCur = j
                    · rw [if_pos hskip]
                      simp only [List.nil_append, segsA]
                      rw [ih]
                      simp [List.length_eq_zero.mp hskip.1]
                    · rw [if_neg hskip]
                      simp only [List.singleton_append, segsA]
                      rw [ih]
                      simp
              · rw [if_neg hj]
                rw [ih]
                simp

theorem segWalk_B {α : Type} (bs : List (DTree α)) :
    ∀ (as : List (DTree α)) (ms : List (Option Nat)) (i iRun : Nat)
      (pend : List (DTree α)) (jCur : Nat),
      segsB (segWalk bs as ms i iRun pend jCur) = bs.drop jCur := by
  intro as
  induction as with
  | nil =>
      intro ms i iRun pend jCur
      simp only [segWalk]
      by_cases h : pend.length = 0 ∧ (bs.drop jCur).length = 0
      · rw [if_pos h, List.length_eq_zero.mp h.2]
        rfl
      · rw [if_neg h]
        simp [segsB]
  | cons x rest ih =>
      intro ms i iRun pend jCur
      cases ms with
      | nil =>
          simp only [segWalk]
          rw [ih]
      | cons m ms2 =>
          cases m with
          | none =>
              simp only [segWalk]
              rw [ih]
          | some j =>
              simp only [segWalk]
              by_cases hj : jCur ≤ j
              · rw [if_pos hj]
                cases hdj : bs.drop j with
                | nil =>
                    rw [ih]
                | cons y ys =>
                    have hys : bs.drop (j + 1) = ys := by
                      rw [← List.drop_drop 1 j bs, hdj]
                      rfl
                    have hsplit : bs.drop jCur =
                        (bs.drop jCur).take (j - jCur) ++ y :: ys := by
                      have h2 := List.take_append_drop (j - jCur) (bs.drop jCur)
                      have h3 : (bs.drop jCur).drop (j - jCur) = bs.drop j := by
                        rw [List.drop_drop]
                        congr 1
                        omega
                      rw [h3, hdj] at h2
                      exact h2.symm
                    by_cases hskip : pend.length = 0 ∧ jCur = j
                    · rw [if_pos hskip]
                      simp only [List.nil_append, segsB]
                      rw [ih, hys, hskip.2, hdj]
                    · rw [if_neg hskip]
                      simp only [List.singleton_append, segsB]
                      rw [ih, hys]
                      conv_rhs => rw [hsplit]
              · rw [if_neg hj]
                rw [ih]

theorem segWalk_ok {α : Type} (bs : List (DTree α)) :
    ∀ (as : List (DTree α)) (ms : List (Option Nat)) (i iRun : Nat)
      (pend : List (DTree α)) (jCur : Nat),
      iRun + pend.length = i →
      SegsOk iRun (segWalk bs as ms i iRun pend jCur) := by
  intro as
  induction as with
  | nil =>
      intro ms i iRun pend jCur _
      simp only [segWalk]
      by_cases h : pend.length = 0 ∧ (bs.drop jCur).length = 0
      · rw [if_pos h]
        simp [SegsOk]
      · rw [if_neg h]
        simp [SegsOk]
  | cons x rest ih =>
      intro ms i iRun pend jCur hinv
      cases ms with
      | nil =>
          simp only [segWalk]
          exact ih [] (i + 1) iRun (pend ++ [x]) jCur (by simp; omega)
      | cons m ms2 =>
          cases m with
          | none =>
              simp only [segWalk]
              exact ih ms2 (i + 1) iRun (pend ++ [x]) jCur (by simp; omega)
          | some j =>
              simp only [segWalk]
              by_cases hj : jCur ≤ j
              · rw [if_pos hj]
                cases hdj : bs.drop j with
                | nil =>
                    exact ih ms2 (i + 1) iRun (pend ++ [x]) jCur (by simp; omega)
                | cons y ys =>
                    by_cases hskip : pend.length = 0 ∧ jCur = j
                    · rw [if_pos hskip]
                      simp only [List.nil_append, SegsOk]
                      have hpe : pend.length = 0 := hskip.1
                      refine ⟨by omega, ?_⟩
                      have he : iRun + 1 = i + 1 := by omega
                      rw [he]
                      exact ih ms2 (i + 1) (i + 1) [] (j + 1) (by simp)
                    · rw [if_neg hskip]
                      simp only [List.singleton_append, SegsOk]
                      refine ⟨by trivial, hinv.symm, ?_⟩
                      have he : iRun + pend.length + 1 = i + 1 := by omega
                      rw [he]
                      exact ih ms2 (i + 1) (i + 1) [] (j + 1) (by simp)
              · rw [if_neg hj]
                exact ih ms2 (i + 1) iRun (pend ++ [x]) jCur (by simp; omega)

theorem segments_A [DecidableEq α] (as bs : List (DTree α)) :
    segsA (segments as bs) = as := by
  unfold segments
  simpa using segWalk_A bs as (partnerAssign as bs) 0 0 [] 0

theorem segments_B [DecidableEq α] (as bs : List (DTree α)) :
    segsB (segments as bs) = bs := by
  unfold segments
  simpa using segWalk_B bs as (partnerAssign as bs) 0 0 [] 0

theorem segments_ok [DecidableEq α] (as bs : List (DTree α)) :
    SegsOk 0 (segments as bs) := by
  unfold segments
  exact segWalk_ok bs as (partnerAssign as bs) 0 0 [] 0 rfl

theorem keptMemA {α : Type} :
    ∀ (segs : List (Seg α)) (i : Nat) (x y : DTree α),
      Seg.kept i x y ∈ segs → x ∈ segsA segs := by
  intro segs
  induction segs with
  | nil =>
      intro i x y h
      exact absurd h (List.not_mem_nil _)
  | cons hd t ih =>
      intro i x y h
      rcases List.mem_cons.mp h with heq | hmem
      · rw [← heq]
        simp [segsA]
      · cases hd with
        | kept i2 x2 y2 =>
            simp only [segsA]
            exact List.mem_cons_of_mem _ (ih i x y hmem)
        | run i2 rem ins =>
            simp only [segsA]
            exact List.mem_append.mpr (Or.inr (ih i x y hmem))

theorem one_le_sizeOf_list {β : Type} [SizeOf β] (l : List β) : 1 ≤ sizeOf l := by
  cases l <;> simp only [List.nil.sizeOf_spec, List.cons.sizeOf_spec] <;> omega

theorem sizeOf_append_list {β : Type} [SizeOf β] :
    ∀ l r : List β, sizeOf (l ++ r) + 1 = sizeOf l + sizeOf r := by
  intro l r
  induction l with
  | nil =>
      simp only [List.nil_append, List.nil.sizeOf_spec]
      omega
  | cons a t ih =>
      simp only [List.cons_append, List.cons.sizeOf_spec]
      omega

theorem segsRunLex {α : Type} (i : Nat) (rem ins : List (DTree α))
    (t : List (Seg α)) :
    Prod.Lex (fun a b => a < b) (fun a b => a < b)
      (sizeOf (segsA t), t.length)
      (sizeOf (segsA (Seg.run i rem ins :: t)),
        (Seg.run i rem ins :: t).length) := by
  have hle : sizeOf (segsA t) ≤ sizeOf (segsA (Seg.run i rem ins :: t)) := by
    simp only [segsA]
    have h2 := sizeOf_append_list rem (segsA t)
    have h3 := one_le_sizeOf_list rem
    omega
  rcases Nat.eq_or_lt_of_le hle with heq | hlt
  · rw [heq]
    exact Prod.Lex.right _ (by
      have hl : (Seg.run i rem ins :: t).length = t.length + 1 := rfl
      omega)
  · exact Prod.Lex.left _ _ hlt

mutual

/-- Modelled from the spec (§4.E+§4.G): diff of one matched pair — an
`UPDATE_NODE` when the payload values differ (the pair was matched
unconditionally; the pairs made by the two passes are value-equal), then
the children's decomposition: each kept matched pair diffed recursively
below its child index, and one `UPDATE_FOREST` per contiguous maximal
run of removed/inserted siblings, emitted right-to-left. -/
def diffT [DecidableEq α] : DTree α → DTree α → List (DOp α)
  | .node va ca, .node vb cb =>
      (if va = vb then [] else [.updateNode [] va vb]) ++
      (diffSegs (segments ca cb) ++ runOpsRev (segments ca cb))
termination_by a _ => (sizeOf a, 0)
decreasing_by
  exact Prod.Lex.left _ _ (by
    rw [segments_A]
    simp only [DTree.node.sizeOf_spec]
    omega)

/-- Operations of the kept matched pairs of a decomposition, in document
order, each re-anchored below its child index. -/
def diffSegs [DecidableEq α] : List (Seg α) → List (DOp α)
  | [] => []
  | .kept i x y :: t => (diffT x y).map (DOp.push i) ++ diffSegs t
  | .run _ _ _ :: t => diffSegs t
termination_by segs => (sizeOf (segsA segs), segs.length)
decreasing_by
  · exact Prod.Lex.left _ _ (by
      simp only [segsA, List.cons.sizeOf_spec]
      omega)
  · exact Prod.Lex.left _ _ (by
      simp only [segsA, List.cons.sizeOf_spec]
      omega)
  · exact segsRunLex _ _ _ _

end

/-- Member-wise strong induction over the nested tree type. -/
theorem DTree.strongInd {α : Type} {motive : DTree α → Prop}
    (h : ∀ v cs, (∀ x ∈ cs, motive x) → motive (.node v cs)) : ∀ t, motive t
  | .node v cs => h v cs (fun x hx =>
      have _hlt : sizeOf x < sizeOf (DTree.node v cs) := by
        simp only [DTree.node.sizeOf_spec]
        have := List.sizeOf_lt_of_mem hx
        omega
      DTree.strongInd h x)
termination_by t => sizeOf t
decreasing_by
  exact _hlt

theorem DTree.eqbList_refl_aux [DecidableEq α] :
    ∀ l : List (DTree α), (∀ x ∈ l, DTree.eqb x x = true) →
      DTree.eqbList l l = true := by
  intro l
  induction l with
  | nil => intro _; rfl
  | cons a t ih =>
      intro h
      unfold DTree.eqbList
      rw [h a (by simp), ih (fun x hx => h x (by simp [hx]))]
      rfl

theorem DTree.eqb_refl [DecidableEq α] : ∀ t : DTree α, DTree.eqb t t = true := by
  intro t
  induction t using DTree.strongInd with
  | h v cs ih =>
      unfold DTree.eqb
      rw [DTree.eqbList_refl_aux cs ih]
      simp

theorem applyOps_append [DecidableEq α] (l1 l2 : List (DOp α)) :
    ∀ t : DTree α, applyOps (l1 ++ l2) t =
      match applyOps l1 t with
      | some t2 => applyOps l2 t2
      | none => none := by
  induction l1 with
  | nil => intro t; rfl
  | cons o os ih =>
      intro t
      simp only [List.cons_append, applyOps]
      cases applyOp o t with
      | some t2 => exact ih t2
      | none => rfl

theorem applyOp_push [DecidableEq α] (o : DOp α) (i : Nat) (v : α)
    (cs : List (DTree α)) (c : DTree α) (hc : cs[i]? = some c) :
    applyOp (o.push i) (.node v cs) =
      match applyOp o c with
      | some c2 => some (.node v (cs.set i c2))
      | none => none := by
  cases o <;> simp [DOp.push, applyOp, applyAux, hc]

theorem set_self_of_getElem? {β : Type} {l : List β} :
    ∀ {i : Nat} {x : β}, l[i]? = some x → l.set i x = l := by
  induction l with
  | nil => intro i x h; simp at h
  | cons a t ih =>
      intro i x h
      cases i with
      | zero =>
          simp at h
          rw [h]
          rfl
      | succ j =>
          simp only [List.getElem?_cons_succ] at h
          simp [List.set, ih h]

theorem applyOps_map_push [DecidableEq α] (i : Nat) :
    ∀ (l : List (DOp α)) (v : α) (cs : List (DTree α)) (c : DTree α),
      cs[i]? = some c →
      applyOps (l.map (DOp.push i)) (.node v cs) =
        (applyOps l c).map (fun c2 => DTree.node v (cs.set i c2)) := by
  intro l
  induction l with
  | nil =>
      intro v cs c hc
      simp only [List.map_nil, applyOps, Option.map_some']
      rw [set_self_of_getElem? hc]
  | cons o os ih =>
      intro v cs c hc
      simp only [List.map_cons, applyOps]
      rw [applyOp_push o i v cs c hc]
      cases hoc : applyOp o c with
      | none => simp [hoc]
      | some c2 =>
          have hi : i < cs.length := by
            by_contra hlt
            rw [List.getElem?_eq_none (Nat.le_of_not_lt hlt)] at hc
            exact Option.noConfusion hc
          have hset : (cs.set i c2)[i]? = some c2 := by
            rw [List.getElem?_set_self]
            exact hi
          dsimp only
          rw [ih v (cs.set i c2) c2 hset]
          simp [List.set_set]

theorem set_append_cons {β : Type} (y x : β) (xs : List β) :
    ∀ pre : List β, (pre ++ x :: xs).set pre.length y = pre ++ y :: xs := by
  intro pre
  induction pre with
  | nil => rfl
  | cons a t ih => simp [List.set, ih]

theorem getElem?_append_cons {β : Type} (x : β) (xs : List β) :
    ∀ pre : List β, (pre ++ x :: xs)[pre.length]? = some x := by
  intro pre
  induction pre with
  | nil => simp
  | cons a t ih => simpa using ih

theorem diffSegs_apply [DecidableEq α] (v : α) :
    ∀ (segs : List (Seg α)) (pre : List (DTree α)),
      SegsOk pre.length segs →
      (∀ i x y, Seg.kept i x y ∈ segs → applyOps (diffT x y) x = some y) →
      applyOps (diffSegs segs) (.node v (pre ++ segsA segs)) =
        some (.node v (pre ++ segsA2 segs)) := by
  intro segs
  induction segs with
  | nil =>
      intro pre _ _
      simp only [diffSegs, segsA, segsA2]
      rfl
  | cons hd t ih =>
      intro pre hok H
      cases hd with
      | kept i x y =>
          simp only [diffSegs, segsA, segsA2]
          simp only [SegsOk] at hok
          obtain ⟨rfl, hok2⟩ := hok
          rw [applyOps_append]
          rw [applyOps_map_push pre.length (diffT x y) v (pre ++ x :: segsA t) x
            (getElem?_append_cons x (segsA t) pre)]
          rw [H pre.length x y (List.mem_cons_self _ _)]
          simp only [Option.map_some']
          rw [set_append_cons]
          have ih2 := ih (pre ++ [y]) (by simpa using hok2)
            (fun i2 x2 y2 hm => H i2 x2 y2 (List.mem_cons_of_mem _ hm))
          simpa using ih2
      | run i2 rem ins =>
          simp only [diffSegs, segsA, segsA2]
          simp only [SegsOk] at hok
          have ih2 := ih (pre ++ rem)
            (by simpa [List.length_append] using hok.2)
            (fun i3 x3 y3 hm => H i3 x3 y3 (List.mem_cons_of_mem _ hm))
          simpa using ih2

theorem runOpsRev_apply [DecidableEq α] (v : α) :
    ∀ (segs : List (Seg α)) (pre : List (DTree α)),
      SegsOk pre.length segs →
      applyOps (runOpsRev segs) (.node v (pre ++ segsA2 segs)) =
        some (.node v (pre ++ segsB segs)) := by
  intro segs
  induction segs with
  | nil =>
      intro pre _
      rfl
  | cons hd t ih =>
      intro pre hok
      cases hd with
      | kept i x y =>
          simp only [runOpsRev, segsA2, segsB]
          simp only [SegsOk] at hok
          have ih2 := ih (pre ++ [y]) (by simpa using hok.2)
          simpa using ih2
      | run i2 rem ins =>
          simp only [runOpsRev, segsA2, segsB]
          simp only [SegsOk] at hok
          obtain ⟨rfl, hok2⟩ := hok
          rw [applyOps_append]
          have ih2 := ih (pre ++ rem)
            (by simpa [List.length_append] using hok2)
          rw [show pre ++ (rem ++ segsA2 t) = (pre ++ rem) ++ segsA2 t from
            (List.append_assoc pre rem (segsA2 t)).symm]
          rw [ih2]
          dsimp only
          simp only [applyOps, applyOp, applyAux]
          have hd1 : ((pre ++ rem) ++ segsB t).drop pre.length = rem ++ segsB t := by
            rw [List.append_assoc]
            exact List.drop_left pre (rem ++ segsB t)
          have hcond : pre.length ≤ ((pre ++ rem) ++ segsB t).length ∧
              DTree.eqbList ((((pre ++ rem) ++ segsB t).drop pre.length).take
                rem.length) rem = true := by
            constructor
            · simp only [List.length_append]
              omega
            · rw [hd1, List.take_left]
              exact DTree.eqbList_refl_aux rem (fun x2 _ => DTree.eqb_refl x2)
          rw [if_pos hcond]
          have hs1 : ((pre ++ rem) ++ segsB t).take pre.length = pre := by
            rw [List.append_assoc]
            exact List.take_left pre (rem ++ segsB t)
          have hs2 : ((pre ++ rem) ++ segsB t).drop (pre.length + rem.length) =
              segsB t :=
            List.drop_left' (by simp)
          rw [hs1, hs2, List.append_assoc]

/-- C1: for all trees A and B over one label type (the document family),
applying the patch produced by `diff(A, B)` to A yields exactly B — the
same labels (tag, attributes, text) in document order. -/
theorem c1_diff_apply_roundtrip {α : Type} [DecidableEq α] :
    ∀ a b : DTree α, applyOps (diffT a b) a = some b := by
  intro a
  induction a using DTree.strongInd with
  | h va ca ih =>
      intro b
      cases b with
      | node vb cb =>
          simp only [diffT]
          rw [applyOps_append]
          have h1 : applyOps (if va = vb then []
              else [DOp.updateNode [] va vb]) (DTree.node va ca) =
              some (.node vb ca) := by
            by_cases hv : va = vb
            · rw [if_pos hv, hv]
              rfl
            · rw [if_neg hv]
              simp [applyOps, applyOp, applyAux]
          rw [h1]
          dsimp only
          rw [applyOps_append]
          have hA := diffSegs_apply vb (segments ca cb) [] (segments_ok ca cb)
            (fun i x y hm => by
              have h2 := keptMemA (segments ca cb) i x y hm
              rw [segments_A] at h2
              exact ih x h2 y)
          simp only [List.nil_append] at hA
          rw [segments_A] at hA
          rw [hA]
          dsimp only
          have hB := runOpsRev_apply vb (segments ca cb) [] (segments_ok ca cb)
          simp only [List.nil_append] at hB
          rw [segments_B] at hB
          exact hB

/-- On spec §8 scenario 4 — `A = ["ul", ["li","a"], ["li","c"]]`,
`B = ["ul", ["li","a"], ["li","b"], ["li","c"]]` — the diff is exactly
one `UPDATE_FOREST` anchored at the root and child index 1 (wire path
`1`) with an empty remove forest inserting `["li","b"]`: the matcher
keeps both list items and the editor extracts the single unmatched run. -/
theorem diffT_scenario_four :
    diffT
      (DTree.node "ul" [.node "li" [.node "a" []], .node "li" [.node "c" []]]
        : DTree String)
      (.node "ul" [.node "li" [.node "a" []], .node "li" [.node "b" []],
        .node "li" [.node "c" []]]) =
      [.updateForest [] 1 [] [.node "li" [.node "b" []]]] := by
  have ha : diffT (DTree.node "a" ([] : List (DTree String))) (.node "a" []) =
      [] := by
    simp only [diffT]
    rw [show segments ([] : List (DTree String)) [] = [] from rfl]
    simp [diffSegs, runOpsRev]
  have hc : diffT (DTree.node "c" ([] : List (DTree String))) (.node "c" []) =
      [] := by
    simp only [diffT]
    rw [show segments ([] : List (DTree String)) [] = [] from rfl]
    simp [diffSegs, runOpsRev]
  have hla : diffT (DTree.node "li" [DTree.node "a" []] : DTree String)
      (.node "li" [.node "a" []]) = [] := by
    simp only [diffT]
    rw [show segments [DTree.node "a" ([] : List (DTree String))]
      [DTree.node "a" []] =
      [Seg.kept 0 (DTree.node "a" []) (DTree.node "a" [])] from rfl]
    simp [diffSegs, runOpsRev, ha]
  have hlc : diffT (DTree.node "li" [DTree.node "c" []] : DTree String)
      (.node "li" [.node "c" []]) = [] := by
    simp only [diffT]
    rw [show segments [DTree.node "c" ([] : List (DTree String))]
      [DTree.node "c" []] =
      [Seg.kept 0 (DTree.node "c" []) (DTree.node "c" [])] from rfl]
    simp [diffSegs, runOpsRev, hc]
  simp only [diffT]
  rw [show segments
      [DTree.node "li" [DTree.node "a" ([] : List (DTree String))],
       DTree.node "li" [DTree.node "c" []]]
      [DTree.node "li" [DTree.node "a" []], DTree.node "li" [DTree.node "b" []],
       DTree.node "li" [DTree.node "c" []]] =
      [Seg.kept 0 (DTree.node "li" [DTree.node "a" []])
        (DTree.node "li" [DTree.node "a" []]),
       Seg.run 1 [] [DTree.node "li" [DTree.node "b" []]],
       Seg.kept 1 (DTree.node "li" [DTree.node "c" []])
        (DTree.node "li" [DTree.node "c" []])] from rfl]
  simp [diffSegs, runOpsRev, hla, hlc]

/-- Witness for C1: scenario 4 of the spec — inserting `["li","b"]` between
the two list items. -/
theorem c1_diff_apply_roundtrip_witness :
    applyOps
      (diffT
        (DTree.node "ul" [.node "li" [.node "a" []], .node "li" [.node "c" []]]
          : DTree String)
        (.node "ul" [.node "li" [.node "a" []], .node "li" [.node "b" []],
          .node "li" [.node "c" []]]))
      (.node "ul" [.node "li" [.node "a" []], .node "li" [.node "c" []]]) =
      some (.node "ul" [.node "li" [.node "a" []], .node "li" [.node "b" []],
        .node "li" [.node "c" []]]) :=
  c1_diff_apply_roundtrip
    (.node "ul" [.node "li" [.node "a" []], .node "li" [.node "c" []]])
    (.node "ul" [.node "li" [.node "a" []], .node "li" [.node "b" []],
      .node "li" [.node "c" []]])

end NodeDelta
